import Mathlib

set_option maxHeartbeats 1000000

/-!
Verification of the task-graph core of the prefect repository.

The graph side (`Flow` and its operations) is embedded from
`src/prefect/core/flow.py`; the dispatch side (`DaskExecutor.submit` /
`DaskExecutor.wait`) from `src/src/prefect/engine/executors/dask.py`.
Python exceptions are embedded as `Except`; because Python mutates `self`
in place and an exception leaves those mutations committed, every
state-touching operation returns the flow alongside its result, and an
error value carries the flow as it stood when the exception was raised.
Error classes of the design taxonomy map to raise sites of the source:
CycleError is the ValueError with message "Flows must be acyclic!",
NotFoundError the ValueError raised by `get_task`, DuplicateKeyError the
ValueError raised by `add_edge`, DuplicateSlugError the ValueError raised
by `add_task`; the embedding identifies an exception by its message text.
-/

namespace PrefectSpec

/-- Modelled from the spec: the Task record (the task module itself is not part
of the excerpt).  Per section 3 of the design a Task carries a display `name`,
a derived `slug`, and, for the Parameter variant, a `required` flag and a
`default` value.  Structural equality stands in for the object identity the
source relies on: within one well-formed Flow no two distinct tasks agree on
`name`, so the two notions coincide there. -/
structure Task where
  name : String
  slug : String
  isParameter : Bool
  required : Bool
  default : Option String
deriving DecidableEq

/-- Modelled from the spec: the Edge record (the edge module itself is not part
of the excerpt).  Section 3: an immutable value with `upstream_task` and
`downstream_task` stored as task names plus an optional keyword-binding
`key`; as an immutable value it compares structurally. -/
structure Edge where
  upstream_task : String
  downstream_task : String
  key : Option String
deriving DecidableEq

/-- Embedding of the `Flow` object state (flow.py, `__init__`): the identity
fields and the mutable graph collections.  The Python task dict is an
association list keyed by task name (Python dicts preserve insertion order);
the Python edge set is a list inserted without duplicates.  The fields
`concurrent_runs` and `cluster` are carried opaquely by the source and are
omitted, as is the opaque schedule object (kept as a plain string). -/
structure Flow where
  name : String
  version : Option String
  project : String
  description : Option String
  schedule : String
  tasks : List (String × Task)
  edges : List Edge
deriving DecidableEq

/-- Result of a method on a Python object: either a normal return together
with the object state, or a raised exception (identified by its message)
together with the object state at the moment of the raise. -/
abbrev FlowRes (α : Type) := Except (String × Flow) (α × Flow)

/-- Python dict lookup `d[k]` / `k in d` on the association-list model. -/
def dictGet : List (String × Task) → String → Option Task
  | [], _ => none
  | (k, v) :: rest, n => if k = n then some v else dictGet rest n

/-- Python dict assignment `d[k] = v`: an existing key keeps its position and
gets the new value, a fresh key is appended. -/
def dictSet : List (String × Task) → String → Task → List (String × Task)
  | [], k, v => [(k, v)]
  | (k1, v1) :: rest, k, v =>
      if k1 = k then (k, v) :: rest else (k1, v1) :: dictSet rest k v

/-- Python `self.tasks.values()`. -/
def taskValues (f : Flow) : List Task := f.tasks.map Prod.snd

/-- Lookup of a task by name on a flow (the read that `get_task` performs). -/
def taskOf (f : Flow) (n : String) : Option Task := dictGet f.tasks n

/-- Python `set.add` on the list model of a set of tasks. -/
def setInsert (l : List Task) (x : Task) : List Task :=
  if x ∈ l then l else l ++ [x]

/-- Python `set.update` on the list model of a set of tasks. -/
def setUnion (l : List Task) (xs : List Task) : List Task :=
  xs.foldl setInsert l

/-- Python `set.add` on the list model of the edge set. -/
def edgeInsert (l : List Edge) (e : Edge) : List Edge :=
  if e ∈ l then l else l ++ [e]

/-- Embedding of `Flow.get_task` (flow.py lines 89 to 96): return the task
stored under `name`, raising ValueError (NotFoundError of the taxonomy) when
the name is absent. -/
def Flow.get_taskS (f : Flow) (n : String) : FlowRes Task :=
  match taskOf f n with
  | some t => .ok (t, f)
  | none => .error ("Task " ++ n ++ " was not found in the Flow", f)

/-- Helper for the set comprehensions of `upstream_tasks` and
`downstream_tasks`: fetch each named task through `get_task`, threading the
flow, and propagate the first exception. -/
def getTasksGo : List String → Flow → FlowRes (List Task)
  | [], f => .ok ([], f)
  | n :: rest, f =>
    match f.get_taskS n with
    | .error e => .error e
    | .ok (t, f1) =>
      match getTasksGo rest f1 with
      | .error e => .error e
      | .ok (ts, f2) => .ok (t :: ts, f2)

/-- Names of the direct upstream neighbours of `n`: the comprehension over
`self.edges` in `upstream_tasks` (flow.py lines 179 to 194).  The Python code
collects the fetched tasks into a set; since the tasks are obtained from
their names by `get_task`, the names are deduplicated first. -/
def upstreamNames (f : Flow) (n : String) : List String :=
  ((f.edges.filter (fun e => decide (e.downstream_task = n))).map
    Edge.upstream_task).dedup

/-- Names of the direct downstream neighbours of `n` (flow.py lines 196 to
211). -/
def downstreamNames (f : Flow) (n : String) : List String :=
  ((f.edges.filter (fun e => decide (e.upstream_task = n))).map
    Edge.downstream_task).dedup

/-- Embedding of `Flow.upstream_tasks`: the set of tasks immediately upstream
from the task named `n`. -/
def Flow.upstream_tasksS (f : Flow) (n : String) : FlowRes (List Task) :=
  getTasksGo (upstreamNames f n) f

/-- Embedding of `Flow.downstream_tasks`: the set of tasks immediately
downstream from the task named `n`. -/
def Flow.downstream_tasksS (f : Flow) (n : String) : FlowRes (List Task) :=
  getTasksGo (downstreamNames f n) f

/-- Edges into a named task (the comprehension of `edges_to`, flow.py lines
259 to 270). -/
def edgesTo (f : Flow) (n : String) : List Edge :=
  f.edges.filter (fun e => decide (e.downstream_task = n))

/-- Edges out of a named task (the comprehension of `edges_from`, flow.py
lines 272 to 283). -/
def edgesFrom (f : Flow) (n : String) : List Edge :=
  f.edges.filter (fun e => decide (e.upstream_task = n))

/-- Embedding of `Flow.edges_to`. -/
def Flow.edges_toS (f : Flow) (n : String) : FlowRes (List Edge) :=
  .ok (edgesTo f n, f)

/-- Embedding of `Flow.edges_from`. -/
def Flow.edges_fromS (f : Flow) (n : String) : FlowRes (List Edge) :=
  .ok (edgesFrom f n, f)

/-- Embedding of `Flow.root_tasks` (flow.py lines 287 to 292): tasks with no
incoming edges. -/
def Flow.root_tasksS (f : Flow) : FlowRes (List Task) :=
  .ok ((taskValues f).filter (fun t => (edgesTo f t.name).isEmpty), f)

/-- Embedding of `Flow.terminal_tasks` (flow.py lines 294 to 299): tasks with
no outgoing edges. -/
def Flow.terminal_tasksS (f : Flow) : FlowRes (List Task) :=
  .ok ((taskValues f).filter (fun t => (edgesFrom f t.name).isEmpty), f)

/-- Pure body of `Flow.parameters` (flow.py lines 301 to 314): the Parameter
tasks, optionally restricted to the required ones, with their metadata. -/
def parametersList (f : Flow) (only_required : Bool) :
    List (String × Bool × Option String) :=
  ((taskValues f).filter
    (fun t => t.isParameter && (if only_required then t.required else true))).map
    (fun t => (t.name, t.required, t.default))

/-- Embedding of `Flow.parameters`. -/
def Flow.parametersS (f : Flow) (only_required : Bool) :
    FlowRes (List (String × Bool × Option String)) :=
  .ok (parametersList f only_required, f)

/-- Message of the ValueError raised when the topological sort finds no
removable task (flow.py line 255). -/
def cycleMsg : String := "Flows must be acyclic!"

/-- Message returned when the explicit iteration bound of the embedding runs
out.  The bound chosen below always dominates the number of iterations the
Python loops can perform, which is proved in the lemmas; no theorem depends
on this branch. -/
def fuelMsg : String := "internal: iteration bound exceeded"

/-- One pass of the sorting loop of `sorted_tasks` (flow.py lines 239 to 252):
walk the snapshot `list(tasks)`, and move every task none of whose upstream
tasks is still in the remaining set from the remaining set to the output,
setting the progress flag.  The flow is threaded because each step reads it
through `upstream_tasks`. -/
def sortPass :
    List Task → List Task → List Task → Bool → Flow →
    Except (String × Flow) (List Task × List Task × Bool × Flow)
  | [], remaining, out, acyclic, f => .ok (remaining, out, acyclic, f)
  | t :: rest, remaining, out, acyclic, f =>
    match f.upstream_tasksS t.name with
    | .error e => .error e
    | .ok (ups, f1) =>
      if ups.any (fun u => decide (u ∈ remaining)) then
        sortPass rest remaining out acyclic f1
      else
        sortPass rest (remaining.erase t) (out ++ [t]) true f1

/-- The while-loop of `sorted_tasks` (flow.py lines 238 to 257): run passes
until the remaining set is empty, raising the acyclicity ValueError whenever
a full pass removes nothing.  The fuel argument bounds the iterations; the
callers pass a bound that provably never runs out. -/
def sortLoop : Nat → List Task → List Task → Flow →
    Except (String × Flow) (List Task × Flow)
  | 0, _, _, f => .error (fuelMsg, f)
  | fuel + 1, remaining, out, f =>
    if remaining.isEmpty then .ok (out, f)
    else
      match sortPass remaining remaining out false f with
      | .error e => .error e
      | .ok (remaining1, out1, acyclic, f1) =>
        if acyclic then sortLoop fuel remaining1 out1 f1
        else .error (cycleMsg, f1)

/-- One pass of the reachability loop of `sorted_tasks` (flow.py lines 228 to
234): for each not-yet-seen task of the snapshot, union its downstream tasks
into the working set and mark it seen. -/
def closurePass :
    List Task → List Task → List Task → Flow →
    Except (String × Flow) (List Task × List Task × Flow)
  | [], tasks, seen, f => .ok (tasks, seen, f)
  | t :: rest, tasks, seen, f =>
    match f.downstream_tasksS t.name with
    | .error e => .error e
    | .ok (ds, f1) =>
      closurePass rest (setUnion tasks ds) (setInsert seen t) f1

/-- The while-loop computing the downstream closure of the root set (flow.py
lines 226 to 234): repeat passes until the seen set equals the working set.
The fuel argument bounds the iterations; the caller passes a bound that
provably never runs out. -/
def closureLoop : Nat → List Task → List Task → Flow →
    Except (String × Flow) (List Task × Flow)
  | 0, _, _, f => .error (fuelMsg, f)
  | fuel + 1, tasks, seen, f =>
    if tasks.all (fun t => decide (t ∈ seen)) &&
        seen.all (fun s => decide (s ∈ tasks)) then
      .ok (tasks, f)
    else
      match closurePass (tasks.filter (fun t => !decide (t ∈ seen))) tasks seen f with
      | .error e => .error e
      | .ok (tasks1, seen1, f1) => closureLoop fuel tasks1 seen1 f1

/-- Embedding of `Flow.sorted_tasks` (flow.py lines 213 to 257).  With no root
set the working set is `set(self.tasks.values())`; with a root set it is the
downstream closure of the given tasks (the source also accepts task names
and resolves them through `get_task`; the embedding takes the tasks
themselves).  The working set is then sorted by repeated passes. -/
def Flow.sorted_tasksS (f : Flow) (root_tasks : Option (List Task)) :
    FlowRes (List Task) :=
  match root_tasks with
  | none =>
    let init := (taskValues f).dedup
    sortLoop (init.length + 1) init [] f
  | some roots =>
    let init := roots.dedup
    match closureLoop (init.length + (taskValues f).length + 2) init [] f with
    | .error e => .error e
    | .ok (tasks1, f1) => sortLoop (tasks1.length + 1) tasks1 [] f1

/-- Embedding of `Flow.add_task` (flow.py lines 98 to 107): reject a slug
collision with ValueError (DuplicateSlugError), otherwise store the task
under its name, silently overwriting a previous entry under the same name.
The isinstance check of the source cannot fail in the embedding because
every value of the `Task` type is a task. -/
def Flow.add_taskS (f : Flow) (t : Task) : Except (String × Flow) Flow :=
  if (taskValues f).any (fun u => decide (u.slug = t.slug)) then
    .error ("Task \"" ++ t.name ++ "\" could not be added because a task with the slug \""
        ++ t.slug ++ "\" already exists in this Flow.", f)
  else
    .ok { f with tasks := dictSet f.tasks t.name t }

/-- Commit tail of `Flow.add_edge` (flow.py lines 139 to 142), shared by the
keyed and unkeyed paths: insert the edge into the edge set, then re-run the
full topological sort so that a cycle raises the acyclicity ValueError, with
the edge already committed. -/
def add_edgeCommit (f2 : Flow) (edge : Edge) : Except (String × Flow) Flow :=
  let f3 : Flow := { f2 with edges := edgeInsert f2.edges edge }
  match f3.sorted_tasksS none with
  | .error e => .error e
  | .ok (_, f4) => .ok f4

/-- Embedding of `Flow.add_edge` (flow.py lines 109 to 142): build the edge
from the endpoint names, auto-add either endpoint not yet among the task
values, reject a duplicate `(downstream, key)` pair with ValueError
(DuplicateKeyError) when the key is non-null, then run the commit tail. -/
def Flow.add_edgeS (f : Flow) (up down : Task) (key : Option String) :
    Except (String × Flow) Flow :=
  let edge : Edge :=
    { upstream_task := up.name, downstream_task := down.name, key := key }
  match (if up ∈ taskValues f then .ok f else f.add_taskS up :
      Except (String × Flow) Flow) with
  | .error e => .error e
  | .ok f1 =>
    match (if down ∈ taskValues f1 then .ok f1 else f1.add_taskS down :
        Except (String × Flow) Flow) with
    | .error e => .error e
    | .ok f2 =>
      match key with
      | some kk =>
        if f2.edges.any (fun e =>
            decide (e.downstream_task = down.name) && decide (e.key = some kk)) then
          .error ("An edge to task " ++ down.name ++ " with key \"" ++ kk
              ++ "\" already exists!", f2)
        else
          add_edgeCommit f2 edge
      | none =>
        add_edgeCommit f2 edge

/-- Helper for `sub_flow` and `safe_deserialize`: add the tasks one after the
other through `add_task`, propagating exceptions. -/
def addTasksFold : List Task → Flow → Except (String × Flow) Flow
  | [], g => .ok g
  | t :: rest, g =>
    match g.add_taskS t with
    | .error e => .error e
    | .ok g1 => addTasksFold rest g1

/-- Embedding of `Flow.sub_flow` (flow.py lines 316 to 334): shallow-copy the
flow with empty task and edge collections, replay the sorted tasks through
`add_task`, then copy over every edge both of whose endpoint names are keys
of the new task mapping.  An exception inside discards the partially built
flow, exactly as the raised exception does in the source. -/
def Flow.sub_flowE (f : Flow) (root_tasks : Option (List Task)) :
    Except String Flow :=
  let g0 : Flow := { f with tasks := [], edges := [] }
  match f.sorted_tasksS root_tasks with
  | .error (m, _) => .error m
  | .ok (ts, _) =>
    match addTasksFold ts g0 with
    | .error (m, _) => .error m
    | .ok g =>
      .ok { g with
        edges := f.edges.filter (fun e =>
          (dictGet g.tasks e.upstream_task).isSome &&
          (dictGet g.tasks e.downstream_task).isSome) }

/-- Modelled from the spec: the per-task record of the persisted flow
representation (section 6): identity (`name`, `slug`), the Parameter
metadata, and the `sort_order` reflecting topological position.  The task
module holding `Task.serialize` is not part of the excerpt. -/
structure SerializedTask where
  name : String
  slug : String
  isParameter : Bool
  required : Bool
  default : Option String
  sort_order : Nat
deriving DecidableEq

/-- Modelled from the spec: the per-edge record of the persisted flow
representation (section 6): `upstream_task`, `downstream_task`, `key`. -/
structure SerializedEdge where
  upstream_task : String
  downstream_task : String
  key : Option String
deriving DecidableEq

/-- The dictionary produced by `Flow.serialize` (flow.py lines 349 to 376),
restricted to the structured fields.  The opaque full-fidelity pickle blob
and the flow-level slug (produced by the external slugify collaborator) are
omitted: `safe_deserialize` reads neither, and no claim mentions them. -/
structure SerializedFlow where
  project : String
  name : String
  version : Option String
  tasks : List SerializedTask
  edges : List SerializedEdge
  parameters : List (String × Bool × Option String)
  description : Option String
  schedule : String
  concurrent_runs : Option Nat
deriving DecidableEq

/-- Modelled from the spec: `Task.serialize` restricted to the fields of the
persisted task record, with the caller-supplied sort order. -/
def Task.serializeRec (t : Task) (sort_order : Nat) : SerializedTask :=
  { name := t.name, slug := t.slug, isParameter := t.isParameter,
    required := t.required, default := t.default, sort_order := sort_order }

/-- Modelled from the spec: `Task.safe_deserialize` rebuilds a placeholder
task with the same name, slug and Parameter metadata and no embedded
logic. -/
def Task.safe_deserializeRec (s : SerializedTask) : Task :=
  { name := s.name, slug := s.slug, isParameter := s.isParameter,
    required := s.required, default := s.default }

/-- Modelled from the spec: `Edge.serialize` writes the three fields of the
edge record. -/
def Edge.serializeRec (e : Edge) : SerializedEdge :=
  { upstream_task := e.upstream_task, downstream_task := e.downstream_task,
    key := e.key }

/-- The `concurrent_runs` value every flow of the embedding carries (the
constructor default; the field is otherwise opaque to the core). -/
def flowConcurrentRuns : Option Nat := none

/-- Embedding of `Flow.serialize` (flow.py lines 349 to 376): enumerate the
topologically sorted tasks starting at sort order 1, serialize every edge,
and record identity, parameters, description and schedule.  A cyclic flow
makes `sorted_tasks` raise, and the exception propagates. -/
def Flow.serializeE (f : Flow) : Except String SerializedFlow :=
  match f.sorted_tasksS none with
  | .error (m, _) => .error m
  | .ok (ts, _) =>
    .ok { project := f.project
          name := f.name
          version := f.version
          tasks := ts.enum.map (fun p => Task.serializeRec p.2 (p.1 + 1))
          edges := f.edges.map Edge.serializeRec
          parameters := parametersList f false
          description := f.description
          schedule := f.schedule
          concurrent_runs := flowConcurrentRuns }

/-- Helper for `safe_deserialize`: add the edges one after the other, fetching
both endpoints through `get_task` and inserting through `add_edge`. -/
def addEdgesFold : List SerializedEdge → Flow → Except (String × Flow) Flow
  | [], g => .ok g
  | e :: rest, g =>
    match g.get_taskS e.upstream_task with
    | .error err => .error err
    | .ok (u, g1) =>
      match g1.get_taskS e.downstream_task with
      | .error err => .error err
      | .ok (d, g2) =>
        match g2.add_edgeS u d e.key with
        | .error err => .error err
        | .ok g3 => addEdgesFold rest g3

/-- Embedding of `Flow.safe_deserialize` (flow.py lines 401 to 426): build a
fresh Flow from the identity fields of the record (the description is not
passed through), rebuild every task through the safe task path, then rebuild
every edge through `add_edge`.  The full-fidelity blob is never read, and no
part of the full `deserialize` path is invoked. -/
def Flow.safe_deserializeE (s : SerializedFlow) : Except String Flow :=
  let f0 : Flow :=
    { name := s.name, version := s.version, project := s.project,
      description := none, schedule := s.schedule, tasks := [], edges := [] }
  match addTasksFold (s.tasks.map Task.safe_deserializeRec) f0 with
  | .error (m, _) => .error m
  | .ok f1 =>
    match addEdgesFold s.edges f1 with
    | .error (m, _) => .error m
    | .ok g => .ok g

/-! Embedding of `Flow.__eq__` (flow.py lines 58 to 79).  The property
`_comps` applies the builtin `tuple` to six positional arguments. -/

/-- One component of the comparison tuple that `_comps` assembles. -/
inductive CompEntry where
  | cls : CompEntry
  | projectC : String → CompEntry
  | nameC : String → CompEntry
  | versionC : Option String → CompEntry
  | tasksC : List (String × Task) → CompEntry
  | edgesC : List Edge → CompEntry
deriving DecidableEq

/-- CPython `tuple(...)` as called with positional arguments: with no argument
it yields the empty tuple, with more than one it raises TypeError.  The
one-argument call would iterate its argument; `_comps` always passes six, so
that branch is never reached by this code base. -/
def pyTupleCall (args : List CompEntry) : Except String (List CompEntry) :=
  match args with
  | [] => .ok []
  | [a] => .ok [a]
  | _ => .error ("TypeError: tuple expected at most 1 argument, got "
      ++ toString args.length)

/-- Embedding of `Flow._comps` (flow.py lines 58 to 67): the source reads
`tuple(type(self), self.project, self.name, self.version, self.tasks,
self.edges)`, a six-argument call of the builtin. -/
def Flow.compsE (f : Flow) : Except String (List CompEntry) :=
  pyTupleCall [CompEntry.cls, CompEntry.projectC f.project,
    CompEntry.nameC f.name, CompEntry.versionC f.version,
    CompEntry.tasksC f.tasks, CompEntry.edgesC f.edges]

/-- Embedding of `Flow.__eq__` (flow.py lines 75 to 76): evaluate
`self._comps == other._comps`; an exception from either property
propagates. -/
def Flow.eqE (f g : Flow) : Except String Bool :=
  match f.compsE with
  | .error m => .error m
  | .ok c1 =>
    match g.compsE with
    | .error m => .error m
    | .ok c2 => .ok (decide (c1 = c2))

/-! Embedding of the dispatch layer, from
`src/src/prefect/engine/executors/dask.py`. -/

/-- State of the `client` attribute of a `DaskExecutor`: never assigned (the
constructor does not set it), set to a live `Client` inside the `start`
scope, or reset to `None` by the `finally` block on scope exit. -/
inductive ClientAttr where
  | unset : ClientAttr
  | cleared : ClientAttr
  | active : ClientAttr
deriving DecidableEq

/-- The executor state the dispatch methods read: the `is_started` flag set by
`start`, and the `client` attribute.  The connection itself is external; the
embedding keeps only what the control flow of `submit` and `wait`
inspects. -/
structure DaskExecutorState where
  is_started : Bool
  client : ClientAttr
deriving DecidableEq

/-- Python `hasattr(self, "client")`. -/
def hasattrClient (ex : DaskExecutorState) : Bool :=
  match ex.client with
  | .unset => false
  | _ => true

/-- Outcome of `DaskExecutor.submit`: a future scheduled on the top-level
client, a future scheduled through a nested `worker_client`, or the implicit
Python `None` return when control falls off the end of the method. -/
inductive SubmitOutcome (α : Type) where
  | clientFuture : α → SubmitOutcome α
  | workerFuture : α → SubmitOutcome α
  | pyNone : SubmitOutcome α
deriving DecidableEq

/-- Embedding of `DaskExecutor.submit` (dask.py lines 134 to 151).  The
submitted callable is represented by the value its call would produce, which
the returned future carries.  When `is_started` is false neither branch is
taken and the method returns `None`. -/
def submitE {α : Type} (ex : DaskExecutorState) (fnResult : α) :
    SubmitOutcome α :=
  if ex.is_started && hasattrClient ex then .clientFuture fnResult
  else if ex.is_started then .workerFuture fnResult
  else .pyNone

/-- A value held by the dask layer: either a concrete result or a future that
resolves to another such value.  One `client.gather` unwraps one future
layer. -/
inductive DVal where
  | base : Nat → DVal
  | future : DVal → DVal
deriving DecidableEq

/-- One `client.gather` application to one element: a future yields its
resolved value, a concrete value passes through. -/
def gatherOne : DVal → DVal
  | .base n => .base n
  | .future v => v

/-- Embedding of `DaskExecutor.wait` (dask.py lines 153 to 169): the method
first evaluates `len(self.client.futures)` (binding an unused local), which
raises AttributeError when the attribute was never assigned or was cleared
to `None`; it then applies `client.gather` four times to the futures list
and returns the result.  The `timeout` parameter appears nowhere in the
body. -/
def waitE (ex : DaskExecutorState) (futures : List DVal)
    (timeout : Option Nat) : Except String (List DVal) :=
  match ex.client with
  | .unset => .error "AttributeError: DaskExecutor object has no attribute client"
  | .cleared => .error "AttributeError: NoneType object has no attribute futures"
  | .active =>
    .ok ((((futures.map gatherOne).map gatherOne).map gatherOne).map gatherOne)

/-! Specification predicates about flows. -/

/-- Invariant 1 of the data model: every edge endpoint names a task of the
mapping. -/
def EdgeEndpointsPresent (f : Flow) : Prop :=
  ∀ e ∈ f.edges, (taskOf f e.upstream_task).isSome ∧
    (taskOf f e.downstream_task).isSome

/-- Two edges collide when they share downstream task and non-null key. -/
def RKey (a b : Edge) : Prop :=
  ¬(a.downstream_task = b.downstream_task ∧ a.key = b.key ∧ a.key ≠ none)

instance (a b : Edge) : Decidable (RKey a b) := by
  unfold RKey; infer_instance

/-- Invariant 3 of the data model: no two edges share downstream task and
non-null key. -/
def NoDupKey (f : Flow) : Prop :=
  f.edges.Pairwise RKey

/-- The structural well-formedness a flow built through the construction API
enjoys: task names are the keys of the mapping and are unique, slugs are
unique, the edge set has no duplicates, edge endpoints exist, and keyed
edges do not collide. -/
def WellFormed (f : Flow) : Prop :=
  (f.tasks.map Prod.fst).Nodup ∧
  (∀ p ∈ f.tasks, p.2.name = p.1) ∧
  (f.tasks.map (fun p => p.2.slug)).Nodup ∧
  f.edges.Nodup ∧
  EdgeEndpointsPresent f ∧
  NoDupKey f

instance (f : Flow) : Decidable (EdgeEndpointsPresent f) := by
  unfold EdgeEndpointsPresent; infer_instance

instance (f : Flow) : Decidable (NoDupKey f) := by
  unfold NoDupKey; infer_instance

instance (f : Flow) : Decidable (WellFormed f) := by
  unfold WellFormed; infer_instance

/-- Acyclicity of the edge relation, expressed as the existence of a rank
function on task names that strictly increases along every edge.  For a
finite graph this is the standard characterisation: a topological order
yields such a ranking, and a ranking forbids any directed cycle. -/
def HasRanking (f : Flow) : Prop :=
  ∃ r : String → Nat, ∀ e ∈ f.edges, r e.upstream_task < r e.downstream_task

/-- The transitive downstream closure of a root set, as task objects of the
flow: the roots belong to it, and following any edge out of a member to the
task stored under the downstream name stays inside it. -/
inductive Reaches (f : Flow) (roots : List Task) : Task → Prop where
  | root {t : Task} : t ∈ roots → Reaches f roots t
  | step {u t : Task} (e : Edge) : Reaches f roots u → e ∈ f.edges →
      e.upstream_task = u.name → taskOf f e.downstream_task = some t →
      Reaches f roots t

/-! Concrete flows used by the witnesses: the scenario of section 8 of the
spec (tasks A, B, C with edges A to B, A to C, and B to C keyed). -/

/-- Task A of the witness scenario. -/
def taskA : Task := ⟨"A", "a", false, false, none⟩

/-- Task B of the witness scenario. -/
def taskB : Task := ⟨"B", "b", false, false, none⟩

/-- Task C of the witness scenario. -/
def taskC : Task := ⟨"C", "c", false, false, none⟩

/-- A Parameter task for the witness scenario of the serialization claim. -/
def taskP : Task := ⟨"P", "p", true, true, some "0"⟩

/-- The witness flow: tasks A, B, C, P with edges A to B, A to C, B to C
under key b_result, and P to A under key x. -/
def flowABC : Flow :=
  { name := "Flow", version := none, project := "default",
    description := none, schedule := "NoSchedule",
    tasks := [("A", taskA), ("B", taskB), ("C", taskC), ("P", taskP)],
    edges := [ { upstream_task := "A", downstream_task := "B", key := none },
               { upstream_task := "A", downstream_task := "C", key := none },
               { upstream_task := "B", downstream_task := "C", key := some "b_result" },
               { upstream_task := "P", downstream_task := "A", key := some "x" } ] }

/-- A two-task flow with the single edge A to B, used by the atomicity
counterexample. -/
def flowAB : Flow :=
  { name := "Flow", version := none, project := "default",
    description := none, schedule := "NoSchedule",
    tasks := [("A", taskA), ("B", taskB)],
    edges := [ { upstream_task := "A", downstream_task := "B", key := none } ] }

/-! Lemmas about the dictionary model. -/

theorem dictGet_mem {l : List (String × Task)} {n : String} {t : Task}
    (h : dictGet l n = some t) : (n, t) ∈ l := by
  induction l with
  | nil => simp [dictGet] at h
  | cons p rest ih =>
    obtain ⟨k, v⟩ := p
    by_cases hk : k = n
    · subst hk
      simp [dictGet] at h
      rw [← h]
      exact List.mem_cons_self _ _
    · simp only [dictGet, if_neg hk] at h
      exact List.mem_cons_of_mem _ (ih h)

theorem taskOf_mem_values {f : Flow} {n : String} {t : Task}
    (h : taskOf f n = some t) : t ∈ taskValues f := by
  have h2 : dictGet f.tasks n = some t := h
  exact List.mem_map.mpr ⟨(n, t), dictGet_mem h2, rfl⟩

theorem taskOf_name {f : Flow} {n : String} {t : Task}
    (hco : ∀ p ∈ f.tasks, p.2.name = p.1) (h : taskOf f n = some t) :
    t.name = n := by
  have h2 : dictGet f.tasks n = some t := h
  exact hco _ (dictGet_mem h2)

theorem dictGet_of_mem {l : List (String × Task)}
    (hnd : (l.map Prod.fst).Nodup) (hco : ∀ p ∈ l, p.2.name = p.1)
    {t : Task} (ht : t ∈ l.map Prod.snd) : dictGet l t.name = some t := by
  induction l with
  | nil => simp at ht
  | cons p rest ih =>
    obtain ⟨k, v⟩ := p
    have hkv : v.name = k := hco (k, v) (List.mem_cons_self _ _)
    rcases List.mem_map.mp ht with ⟨q, hq, hq2⟩
    rcases List.mem_cons.mp hq with hql | hqr
    · subst hql
      simp only at hq2; subst hq2
      simp [dictGet, hkv]
    · have htr : t ∈ rest.map Prod.snd := List.mem_map.mpr ⟨q, hqr, hq2⟩
      have hname : t.name ∈ rest.map Prod.fst := by
        have := hco q (List.mem_cons_of_mem _ hqr)
        subst hq2
        exact List.mem_map.mpr ⟨q, hqr, this.symm⟩
      have hkne : k ≠ t.name := by
        intro hEq
        have := (List.nodup_cons.mp hnd).1
        rw [hEq] at this
        exact this hname
      simp only [dictGet, if_neg hkne]
      exact ih (List.nodup_cons.mp hnd).2 (fun p hp => hco p (List.mem_cons_of_mem _ hp)) htr

theorem taskOf_of_mem_values {f : Flow}
    (hnd : (f.tasks.map Prod.fst).Nodup) (hco : ∀ p ∈ f.tasks, p.2.name = p.1)
    {t : Task} (ht : t ∈ taskValues f) : taskOf f t.name = some t :=
  dictGet_of_mem hnd hco ht

theorem dictGet_isSome_iff {l : List (String × Task)} {n : String} :
    (dictGet l n).isSome ↔ ∃ p ∈ l, p.1 = n := by
  induction l with
  | nil => simp [dictGet]
  | cons p rest ih =>
    obtain ⟨k, v⟩ := p
    by_cases hk : k = n
    · subst hk; simp [dictGet]
    · simp only [dictGet, if_neg hk, ih]
      constructor
      · rintro ⟨q, hq, hq2⟩; exact ⟨q, List.mem_cons_of_mem _ hq, hq2⟩
      · rintro ⟨q, hq, hq2⟩
        rcases List.mem_cons.mp hq with hql | hqr
        · exfalso; subst hql; exact hk hq2
        · exact ⟨q, hqr, hq2⟩

/-! Characterisation of the neighbour reads. -/

/-- The task `u` is an immediate upstream neighbour of the name `n`. -/
def UpEdge (f : Flow) (n : String) (u : Task) : Prop :=
  ∃ e ∈ f.edges, e.downstream_task = n ∧ taskOf f e.upstream_task = some u

/-- The task `d` is an immediate downstream neighbour of the name `n`. -/
def DownEdge (f : Flow) (n : String) (d : Task) : Prop :=
  ∃ e ∈ f.edges, e.upstream_task = n ∧ taskOf f e.downstream_task = some d

theorem getTasksGo_ok {f : Flow} {names : List String}
    (h : ∀ nm ∈ names, (taskOf f nm).isSome) :
    ∃ ts, getTasksGo names f = .ok (ts, f) ∧
      ∀ t, t ∈ ts ↔ ∃ nm ∈ names, taskOf f nm = some t := by
  induction names with
  | nil => exact ⟨[], rfl, by simp⟩
  | cons n rest ih =>
    have hn := h n (List.mem_cons_self _ _)
    rcases Option.isSome_iff_exists.mp hn with ⟨t, ht⟩
    rcases ih (fun nm hm => h nm (List.mem_cons_of_mem _ hm)) with ⟨ts, hts, hmem⟩
    refine ⟨t :: ts, ?_, ?_⟩
    · simp only [getTasksGo, Flow.get_taskS, ht, hts]
    · intro x
      simp only [List.mem_cons, hmem]
      constructor
      · rintro (rfl | ⟨nm, hnm, hx⟩)
        · exact ⟨n, Or.inl rfl, ht⟩
        · exact ⟨nm, Or.inr hnm, hx⟩
      · rintro ⟨nm, hnm, hx⟩
        rcases hnm with rfl | hr
        · rw [ht] at hx
          injection hx with hx2
          exact Or.inl hx2.symm
        · exact Or.inr ⟨nm, hr, hx⟩

theorem mem_upstreamNames {f : Flow} {n nm : String} :
    nm ∈ upstreamNames f n ↔
      ∃ e ∈ f.edges, e.downstream_task = n ∧ e.upstream_task = nm := by
  simp only [upstreamNames, List.mem_dedup, List.mem_map, List.mem_filter,
    decide_eq_true_eq]
  constructor
  · rintro ⟨e, ⟨he, hd⟩, hu⟩; exact ⟨e, he, hd, hu⟩
  · rintro ⟨e, he, hd, hu⟩; exact ⟨e, ⟨he, hd⟩, hu⟩

theorem mem_downstreamNames {f : Flow} {n nm : String} :
    nm ∈ downstreamNames f n ↔
      ∃ e ∈ f.edges, e.upstream_task = n ∧ e.downstream_task = nm := by
  simp only [downstreamNames, List.mem_dedup, List.mem_map, List.mem_filter,
    decide_eq_true_eq]
  constructor
  · rintro ⟨e, ⟨he, hd⟩, hu⟩; exact ⟨e, he, hd, hu⟩
  · rintro ⟨e, he, hd, hu⟩; exact ⟨e, ⟨he, hd⟩, hu⟩

theorem upstream_tasksS_ok {f : Flow} (hwf5 : EdgeEndpointsPresent f)
    (n : String) :
    ∃ ups, f.upstream_tasksS n = .ok (ups, f) ∧
      ∀ u, u ∈ ups ↔ UpEdge f n u := by
  have h : ∀ nm ∈ upstreamNames f n, (taskOf f nm).isSome := by
    intro nm hnm
    rcases mem_upstreamNames.mp hnm with ⟨e, he, _, hu⟩
    rw [← hu]; exact (hwf5 e he).1
  rcases getTasksGo_ok h with ⟨ups, hru, hmem⟩
  refine ⟨ups, hru, ?_⟩
  intro u
  rw [hmem u]
  constructor
  · rintro ⟨nm, hnm, hu⟩
    rcases mem_upstreamNames.mp hnm with ⟨e, he, hd, hup⟩
    exact ⟨e, he, hd, hup ▸ hu⟩
  · rintro ⟨e, he, hd, hu⟩
    exact ⟨e.upstream_task, mem_upstreamNames.mpr ⟨e, he, hd, rfl⟩, hu⟩

theorem downstream_tasksS_ok {f : Flow} (hwf5 : EdgeEndpointsPresent f)
    (n : String) :
    ∃ ds, f.downstream_tasksS n = .ok (ds, f) ∧
      ∀ d, d ∈ ds ↔ DownEdge f n d := by
  have h : ∀ nm ∈ downstreamNames f n, (taskOf f nm).isSome := by
    intro nm hnm
    rcases mem_downstreamNames.mp hnm with ⟨e, he, _, hu⟩
    rw [← hu]; exact (hwf5 e he).2
  rcases getTasksGo_ok h with ⟨ds, hrd, hmem⟩
  refine ⟨ds, hrd, ?_⟩
  intro d
  rw [hmem d]
  constructor
  · rintro ⟨nm, hnm, hd⟩
    rcases mem_downstreamNames.mp hnm with ⟨e, he, hu, hdn⟩
    exact ⟨e, he, hu, hdn ▸ hd⟩
  · rintro ⟨e, he, hu, hd⟩
    exact ⟨e.downstream_task, mem_downstreamNames.mpr ⟨e, he, hu, rfl⟩, hd⟩

/-! Frame lemmas: the reads thread the flow through unchanged. -/

theorem getTasksGo_flow {names : List String} :
    ∀ {f : Flow} {r}, getTasksGo names f = r →
      (∀ a f1, r = .ok (a, f1) → f1 = f) ∧
      (∀ m f1, r = .error (m, f1) → f1 = f) := by
  induction names with
  | nil =>
    intro f r h
    constructor
    · intro a f1 hr; rw [hr] at h; simp [getTasksGo] at h; exact h.2.symm
    · intro m f1 hr; rw [hr] at h; simp [getTasksGo] at h
  | cons n rest ih =>
    intro f r h
    simp only [getTasksGo, Flow.get_taskS] at h
    cases htn : taskOf f n with
    | none =>
      rw [htn] at h
      constructor
      · intro a f1 hr; rw [hr] at h; simp at h
      · intro m f1 hr; rw [hr] at h; simp at h; exact h.2.symm
    | some t =>
      rw [htn] at h
      dsimp only at h
      cases hrec : getTasksGo rest f with
      | error e =>
        obtain ⟨m0, f0⟩ := e
        have hrec2 := (ih hrec).2 m0 f0 rfl
        rw [hrec] at h
        constructor
        · intro a f1 hr; rw [hr] at h; simp at h
        · intro m f1 hr; rw [hr] at h; simp at h
          rw [← h.2, hrec2]
      | ok p =>
        obtain ⟨ts, f2⟩ := p
        have hrec2 := (ih hrec).1 ts f2 rfl
        rw [hrec] at h
        constructor
        · intro a f1 hr; rw [hr] at h; simp at h
          rw [← h.2, hrec2]
        · intro m f1 hr; rw [hr] at h; simp at h

theorem upstream_tasksS_flow_ok {f : Flow} {n : String} {a f1}
    (h : f.upstream_tasksS n = .ok (a, f1)) : f1 = f :=
  (getTasksGo_flow h).1 a f1 rfl

theorem upstream_tasksS_flow_err {f : Flow} {n : String} {m f1}
    (h : f.upstream_tasksS n = .error (m, f1)) : f1 = f :=
  (getTasksGo_flow h).2 m f1 rfl

theorem downstream_tasksS_flow_ok {f : Flow} {n : String} {a f1}
    (h : f.downstream_tasksS n = .ok (a, f1)) : f1 = f :=
  (getTasksGo_flow h).1 a f1 rfl

theorem downstream_tasksS_flow_err {f : Flow} {n : String} {m f1}
    (h : f.downstream_tasksS n = .error (m, f1)) : f1 = f :=
  (getTasksGo_flow h).2 m f1 rfl

theorem sortPass_flow {snapshot : List Task} :
    ∀ {rem out acy} {f : Flow} {r}, sortPass snapshot rem out acy f = r →
      (∀ rem1 out1 acy1 f1, r = .ok (rem1, out1, acy1, f1) → f1 = f) ∧
      (∀ m f1, r = .error (m, f1) → f1 = f) := by
  induction snapshot with
  | nil =>
    intro rem out acy f r h
    constructor
    · intro rem1 out1 acy1 f1 hr; rw [hr] at h
      simp [sortPass] at h; exact h.2.2.2.symm
    · intro m f1 hr; rw [hr] at h; simp [sortPass] at h
  | cons t rest ih =>
    intro rem out acy f r h
    simp only [sortPass] at h
    cases hup : f.upstream_tasksS t.name with
    | error e =>
      obtain ⟨m0, f0⟩ := e
      have hf0 : f0 = f := upstream_tasksS_flow_err hup
      rw [hup] at h
      dsimp only at h
      constructor
      · intro rem1 out1 acy1 f1 hr; rw [hr] at h; simp at h
      · intro m f1 hr; rw [hr] at h; simp at h
        rw [← h.2, hf0]
    | ok p =>
      obtain ⟨ups, fu⟩ := p
      have hfu : fu = f := upstream_tasksS_flow_ok hup
      subst hfu
      rw [hup] at h
      dsimp only at h
      by_cases hblock : ups.any (fun u => decide (u ∈ rem)) = true
      · rw [if_pos hblock] at h
        exact ih h
      · rw [if_neg hblock] at h
        exact ih h

theorem sortLoop_flow {fuel : Nat} :
    ∀ {rem out} {f : Flow} {r}, sortLoop fuel rem out f = r →
      (∀ res f1, r = .ok (res, f1) → f1 = f) ∧
      (∀ m f1, r = .error (m, f1) → f1 = f) := by
  induction fuel with
  | zero =>
    intro rem out f r h
    constructor
    · intro res f1 hr; rw [hr] at h; simp [sortLoop] at h
    · intro m f1 hr; rw [hr] at h; simp [sortLoop] at h; exact h.2.symm
  | succ fuel ih =>
    intro rem out f r h
    simp only [sortLoop] at h
    by_cases hempty : rem.isEmpty = true
    · rw [if_pos hempty] at h
      constructor
      · intro res f1 hr; rw [hr] at h; simp at h; exact h.2.symm
      · intro m f1 hr; rw [hr] at h; simp at h
    · rw [if_neg hempty] at h
      cases hpass : sortPass rem rem out false f with
      | error e =>
        obtain ⟨m0, f0⟩ := e
        have hf0 : f0 = f := (sortPass_flow hpass).2 m0 f0 rfl
        rw [hpass] at h
        dsimp only at h
        constructor
        · intro res f1 hr; rw [hr] at h; simp at h
        · intro m f1 hr; rw [hr] at h; simp at h
          rw [← h.2, hf0]
      | ok q =>
        obtain ⟨rem1, out1, acy1, f1⟩ := q
        have hf1 : f1 = f := (sortPass_flow hpass).1 rem1 out1 acy1 f1 rfl
        subst hf1
        rw [hpass] at h
        dsimp only at h
        by_cases hacy : acy1 = true
        · rw [if_pos hacy] at h
          exact ih h
        · rw [if_neg hacy] at h
          constructor
          · intro res f1 hr; rw [hr] at h; simp at h
          · intro m f1 hr; rw [hr] at h; simp at h; exact h.2.symm

/-! Shape lemmas about the sorting pass. -/

theorem exists_min_measure {α : Type} (g : α → Nat) :
    ∀ {l : List α}, l ≠ [] → ∃ t ∈ l, ∀ x ∈ l, g t ≤ g x := by
  intro l
  induction l with
  | nil => intro h; exact absurd rfl h
  | cons x rest ih =>
    intro _
    rcases eq_or_ne rest [] with hr | hr
    · subst hr
      refine ⟨x, List.mem_cons_self _ _, ?_⟩
      intro y hy
      simp at hy; subst hy; exact le_refl _
    · rcases ih hr with ⟨t, ht, hmin⟩
      by_cases hgt : g t ≤ g x
      · refine ⟨t, List.mem_cons_of_mem _ ht, ?_⟩
        intro y hy
        rcases List.mem_cons.mp hy with rfl | hyr
        · exact hgt
        · exact hmin y hyr
      · refine ⟨x, List.mem_cons_self _ _, ?_⟩
        intro y hy
        rcases List.mem_cons.mp hy with rfl | hyr
        · exact le_refl _
        · exact le_trans (le_of_not_le hgt) (hmin y hyr)

theorem erase_append_perm {t : Task} {rem out : List Task} (ht : t ∈ rem) :
    ((rem.erase t) ++ (out ++ [t])).Perm (rem ++ out) := by
  have h1 : rem.Perm (t :: rem.erase t) := List.perm_cons_erase ht
  have h2 : ((rem.erase t ++ out) ++ [t]).Perm ([t] ++ (rem.erase t ++ out)) :=
    List.perm_append_comm
  have h3 : ((rem.erase t) ++ (out ++ [t])) = (rem.erase t ++ out) ++ [t] :=
    (List.append_assoc _ _ _).symm
  rw [h3]
  refine h2.trans ?_
  have h4 : ([t] ++ (rem.erase t ++ out)) = (t :: rem.erase t) ++ out := rfl
  rw [h4]
  exact (h1.append_right out).symm

theorem sortPass_ok {f : Flow} (hwf5 : EdgeEndpointsPresent f) :
    ∀ (snapshot rem out : List Task) (acy : Bool),
      ∃ rem1 out1 acy1,
        sortPass snapshot rem out acy f = .ok (rem1, out1, acy1, f) := by
  intro snapshot
  induction snapshot with
  | nil => intro rem out acy; exact ⟨rem, out, acy, rfl⟩
  | cons t rest ih =>
    intro rem out acy
    rcases upstream_tasksS_ok hwf5 t.name with ⟨ups, hup, _⟩
    by_cases hblock : ups.any (fun u => decide (u ∈ rem)) = true
    · rcases ih rem out acy with ⟨r1, o1, a1, hres⟩
      refine ⟨r1, o1, a1, ?_⟩
      simp only [sortPass]; rw [hup]; dsimp only; rw [if_pos hblock]; exact hres
    · rcases ih (rem.erase t) (out ++ [t]) true with ⟨r1, o1, a1, hres⟩
      refine ⟨r1, o1, a1, ?_⟩
      simp only [sortPass]; rw [hup]; dsimp only; rw [if_neg hblock]; exact hres

theorem sortPass_spec {f : Flow} :
    ∀ {snapshot rem out : List Task} {acy : Bool} {rem1 out1 acy1 f1},
      sortPass snapshot rem out acy f = .ok (rem1, out1, acy1, f1) →
      snapshot.Nodup → (∀ x ∈ snapshot, x ∈ rem) → rem.Nodup →
      rem1.Nodup ∧ (∀ x ∈ rem1, x ∈ rem) ∧ rem1.length ≤ rem.length ∧
        (acy1 = true → acy = true ∨ rem1.length < rem.length) ∧
        (rem1 ++ out1).Perm (rem ++ out) := by
  intro snapshot
  induction snapshot with
  | nil =>
    intro rem out acy rem1 out1 acy1 f1 h _ _ hrem
    simp [sortPass] at h
    obtain ⟨h1, h2, h3, _⟩ := h
    subst h1; subst h2; subst h3
    exact ⟨hrem, fun x hx => hx, le_refl _, fun ha => Or.inl ha, List.Perm.refl _⟩
  | cons t rest ih =>
    intro rem out acy rem1 out1 acy1 f1 h hsnd hsub hrem
    simp only [sortPass] at h
    cases hup : f.upstream_tasksS t.name with
    | error e =>
      rw [hup] at h; dsimp only at h; cases h
    | ok p =>
      obtain ⟨ups, fu⟩ := p
      have hfu : fu = f := upstream_tasksS_flow_ok hup
      subst hfu
      rw [hup] at h
      dsimp only at h
      have hrestnd : rest.Nodup := (List.nodup_cons.mp hsnd).2
      have htnotrest : t ∉ rest := (List.nodup_cons.mp hsnd).1
      have ht : t ∈ rem := hsub t (List.mem_cons_self _ _)
      have hpos : 0 < rem.length := List.length_pos_of_mem ht
      by_cases hblock : ups.any (fun u => decide (u ∈ rem)) = true
      · rw [if_pos hblock] at h
        exact ih h hrestnd (fun x hx => hsub x (List.mem_cons_of_mem _ hx)) hrem
      · rw [if_neg hblock] at h
        have hsub2 : ∀ x ∈ rest, x ∈ rem.erase t := by
          intro x hx
          have hne : x ≠ t := by
            intro hEq; subst hEq; exact htnotrest hx
          exact (List.mem_erase_of_ne hne).mpr (hsub x (List.mem_cons_of_mem _ hx))
        have hlen : (rem.erase t).length = rem.length - 1 :=
          List.length_erase_of_mem ht
        obtain ⟨ih1, ih2, ih3, _, ih5⟩ := ih h hrestnd hsub2 (hrem.erase t)
        refine ⟨ih1, ?_, ?_, ?_, ?_⟩
        · intro x hx; exact List.mem_of_mem_erase (ih2 x hx)
        · rw [hlen] at ih3; omega
        · intro _; right; rw [hlen] at ih3; omega
        · exact ih5.trans (erase_append_perm ht)

theorem sortPass_mono {f : Flow} :
    ∀ {snapshot rem out : List Task} {rem1 out1 acy1 f1},
      sortPass snapshot rem out true f = .ok (rem1, out1, acy1, f1) →
      acy1 = true := by
  intro snapshot
  induction snapshot with
  | nil =>
    intro rem out rem1 out1 acy1 f1 h
    simp [sortPass] at h
    exact h.2.2.1
  | cons t rest ih =>
    intro rem out rem1 out1 acy1 f1 h
    simp only [sortPass] at h
    cases hup : f.upstream_tasksS t.name with
    | error e => rw [hup] at h; dsimp only at h; cases h
    | ok p =>
      obtain ⟨ups, fu⟩ := p
      have hfu : fu = f := upstream_tasksS_flow_ok hup
      subst hfu
      rw [hup] at h
      dsimp only at h
      by_cases hblock : ups.any (fun u => decide (u ∈ rem)) = true
      · rw [if_pos hblock] at h; exact ih h
      · rw [if_neg hblock] at h; exact ih h

theorem sortPass_hits {f : Flow} (hwf5 : EdgeEndpointsPresent f) :
    ∀ {snapshot rem out : List Task} {acy : Bool} {rem1 out1 acy1 f1} {t : Task},
      sortPass snapshot rem out acy f = .ok (rem1, out1, acy1, f1) →
      t ∈ snapshot → snapshot.Nodup → (∀ x ∈ snapshot, x ∈ rem) →
      (∀ u, UpEdge f t.name u → u ∉ rem) → acy1 = true := by
  intro snapshot
  induction snapshot with
  | nil =>
    intro rem out acy rem1 out1 acy1 f1 t _ htm
    simp at htm
  | cons t0 rest ih =>
    intro rem out acy rem1 out1 acy1 f1 t h htm hsnd hsub hmin
    simp only [sortPass] at h
    rcases upstream_tasksS_ok hwf5 t0.name with ⟨ups, hup, hups⟩
    rw [hup] at h
    dsimp only at h
    have hrestnd : rest.Nodup := (List.nodup_cons.mp hsnd).2
    rcases List.mem_cons.mp htm with rfl | htrest
    · have hblock : ¬ ups.any (fun u => decide (u ∈ rem)) = true := by
        intro hb
        rcases List.any_eq_true.mp hb with ⟨u, hu_ups, hu_rem⟩
        have hu_rem2 : u ∈ rem := of_decide_eq_true hu_rem
        exact hmin u ((hups u).mp hu_ups) hu_rem2
      rw [if_neg hblock] at h
      exact sortPass_mono h
    · by_cases hblock : ups.any (fun u => decide (u ∈ rem)) = true
      · rw [if_pos hblock] at h
        exact ih h htrest hrestnd
          (fun x hx => hsub x (List.mem_cons_of_mem _ hx)) hmin
      · rw [if_neg hblock] at h
        refine ih h htrest hrestnd ?_ ?_
        · intro x hx
          have hne : x ≠ t0 := by
            intro hEq; subst hEq; exact (List.nodup_cons.mp hsnd).1 hx
          exact (List.mem_erase_of_ne hne).mpr (hsub x (List.mem_cons_of_mem _ hx))
        · intro u hu hmem
          exact hmin u hu (List.mem_of_mem_erase hmem)

/-! Lemmas about the sorting loop. -/

theorem sortLoop_cases {f : Flow} (hwf5 : EdgeEndpointsPresent f) :
    ∀ (fuel : Nat) {rem out : List Task}, rem.Nodup → rem.length < fuel →
      (∃ res, sortLoop fuel rem out f = .ok (res, f)) ∨
        sortLoop fuel rem out f = .error (cycleMsg, f) := by
  intro fuel
  induction fuel with
  | zero => intro rem out _ hlen; omega
  | succ fuel ih =>
    intro rem out hnd hlen
    by_cases hempty : rem.isEmpty = true
    · left
      exact ⟨out, by simp only [sortLoop]; rw [if_pos hempty]⟩
    · rcases sortPass_ok hwf5 rem rem out false with ⟨rem1, out1, acy1, hpass⟩
      obtain ⟨s1, _, s3, s4, _⟩ := sortPass_spec hpass hnd (fun x hx => hx) hnd
      by_cases hacy : acy1 = true
      · have hstrict : rem1.length < rem.length := by
          rcases s4 hacy with hfalse | hlt
          · exact absurd hfalse (by simp)
          · exact hlt
        rcases ih s1 (by omega) with ⟨res, hres⟩ | herr
        · left
          refine ⟨res, ?_⟩
          simp only [sortLoop]; rw [if_neg hempty, hpass]; dsimp only
          rw [if_pos hacy]; exact hres
        · right
          simp only [sortLoop]; rw [if_neg hempty, hpass]; dsimp only
          rw [if_pos hacy]; exact herr
      · right
        simp only [sortLoop]; rw [if_neg hempty, hpass]; dsimp only
        rw [if_neg hacy]

theorem sortLoop_perm {f : Flow} (hwf5 : EdgeEndpointsPresent f) :
    ∀ (fuel : Nat) {rem out res : List Task} {f1},
      sortLoop fuel rem out f = .ok (res, f1) → rem.Nodup →
      res.Perm (rem ++ out) := by
  intro fuel
  induction fuel with
  | zero => intro rem out res f1 h _; simp [sortLoop] at h
  | succ fuel ih =>
    intro rem out res f1 h hnd
    simp only [sortLoop] at h
    by_cases hempty : rem.isEmpty = true
    · rw [if_pos hempty] at h
      simp at h
      have hremnil : rem = [] := List.isEmpty_iff.mp hempty
      rw [hremnil, h.1]
      exact List.Perm.refl _
    · rw [if_neg hempty] at h
      rcases sortPass_ok hwf5 rem rem out false with ⟨rem1, out1, acy1, hpass⟩
      obtain ⟨s1, _, _, _, s5⟩ := sortPass_spec hpass hnd (fun x hx => hx) hnd
      rw [hpass] at h
      dsimp only at h
      by_cases hacy : acy1 = true
      · rw [if_pos hacy] at h
        exact (ih h s1).trans s5
      · rw [if_neg hacy] at h
        cases h

/-- Invariant of the sorting loop used for the order statement: the remaining
set and the output together are a permutation of the working set, and every
edge both of whose endpoint tasks exist has its upstream task strictly ahead
of its downstream task wherever the downstream task is already in the
output. -/
def SInv (f : Flow) (rem out : List Task) : Prop :=
  ((rem ++ out).Perm ((taskValues f).dedup)) ∧
  ∀ e ∈ f.edges, ∀ u d : Task, taskOf f e.upstream_task = some u →
    taskOf f e.downstream_task = some d → d ∈ out →
    ∃ l1 l2, out = l1 ++ d :: l2 ∧ u ∈ l1

theorem sortPass_sinv {f : Flow} (hwf5 : EdgeEndpointsPresent f)
    (hco : ∀ p ∈ f.tasks, p.2.name = p.1) :
    ∀ {snapshot rem out : List Task} {acy : Bool} {rem1 out1 acy1 f1},
      sortPass snapshot rem out acy f = .ok (rem1, out1, acy1, f1) →
      snapshot.Nodup → (∀ x ∈ snapshot, x ∈ rem) → rem.Nodup →
      SInv f rem out → SInv f rem1 out1 := by
  intro snapshot
  induction snapshot with
  | nil =>
    intro rem out acy rem1 out1 acy1 f1 h _ _ _ hinv
    simp [sortPass] at h
    obtain ⟨h1, h2, _, _⟩ := h
    subst h1; subst h2
    exact hinv
  | cons t rest ih =>
    intro rem out acy rem1 out1 acy1 f1 h hsnd hsub hrem hinv
    simp only [sortPass] at h
    rcases upstream_tasksS_ok hwf5 t.name with ⟨ups, hup, hups⟩
    rw [hup] at h
    dsimp only at h
    have hrestnd : rest.Nodup := (List.nodup_cons.mp hsnd).2
    have htnotrest : t ∉ rest := (List.nodup_cons.mp hsnd).1
    have ht : t ∈ rem := hsub t (List.mem_cons_self _ _)
    by_cases hblock : ups.any (fun u => decide (u ∈ rem)) = true
    · rw [if_pos hblock] at h
      exact ih h hrestnd (fun x hx => hsub x (List.mem_cons_of_mem _ hx)) hrem hinv
    · rw [if_neg hblock] at h
      have hnoup : ∀ u ∈ ups, u ∉ rem := by
        intro u hu hurem
        exact hblock (List.any_eq_true.mpr ⟨u, hu, decide_eq_true hurem⟩)
      have hsub2 : ∀ x ∈ rest, x ∈ rem.erase t := by
        intro x hx
        have hne : x ≠ t := by
          intro hEq; subst hEq; exact htnotrest hx
        exact (List.mem_erase_of_ne hne).mpr (hsub x (List.mem_cons_of_mem _ hx))
      refine ih h hrestnd hsub2 (hrem.erase t) ⟨?_, ?_⟩
      · exact (erase_append_perm ht).trans hinv.1
      · intro e he u d hu hd hdout
        rcases List.mem_append.mp hdout with hdo | hdt
        · rcases hinv.2 e he u d hu hd hdo with ⟨l1, l2, hsp, hul1⟩
          refine ⟨l1, l2 ++ [t], ?_, hul1⟩
          rw [hsp]
          simp [List.append_assoc]
        · have hdt2 : d = t := by simpa using hdt
          subst hdt2
          refine ⟨out, [], rfl, ?_⟩
          have hname : d.name = e.downstream_task := taskOf_name hco hd
          have huups : u ∈ ups := (hups u).mpr ⟨e, he, hname.symm, hu⟩
          have hunotrem : u ∉ rem := hnoup u huups
          have humem : u ∈ rem ++ out := by
            refine (hinv.1.mem_iff).mpr ?_
            exact List.mem_dedup.mpr (taskOf_mem_values hu)
          rcases List.mem_append.mp humem with hur | huo
          · exact absurd hur hunotrem
          · exact huo

theorem sortLoop_sinv {f : Flow} (hwf5 : EdgeEndpointsPresent f)
    (hco : ∀ p ∈ f.tasks, p.2.name = p.1) :
    ∀ (fuel : Nat) {rem out res : List Task} {f1},
      sortLoop fuel rem out f = .ok (res, f1) → rem.Nodup →
      SInv f rem out → SInv f [] res := by
  intro fuel
  induction fuel with
  | zero => intro rem out res f1 h _ _; simp [sortLoop] at h
  | succ fuel ih =>
    intro rem out res f1 h hnd hinv
    simp only [sortLoop] at h
    by_cases hempty : rem.isEmpty = true
    · rw [if_pos hempty] at h
      simp at h
      have hremnil : rem = [] := List.isEmpty_iff.mp hempty
      rw [← h.1, ← hremnil]
      exact hinv
    · rw [if_neg hempty] at h
      rcases sortPass_ok hwf5 rem rem out false with ⟨rem1, out1, acy1, hpass⟩
      obtain ⟨s1, _, _, _, _⟩ := sortPass_spec hpass hnd (fun x hx => hx) hnd
      have hinv1 : SInv f rem1 out1 :=
        sortPass_sinv hwf5 hco hpass hnd (fun x hx => hx) hnd hinv
      rw [hpass] at h
      dsimp only at h
      by_cases hacy : acy1 = true
      · rw [if_pos hacy] at h
        exact ih h s1 hinv1
      · rw [if_neg hacy] at h
        cases h

theorem sortLoop_ranking_ok {f : Flow} (hwf5 : EdgeEndpointsPresent f)
    (hco : ∀ p ∈ f.tasks, p.2.name = p.1) (hrank : HasRanking f) :
    ∀ (fuel : Nat) {rem out : List Task}, rem.Nodup → rem.length < fuel →
      ∃ res, sortLoop fuel rem out f = .ok (res, f) := by
  obtain ⟨r, hr⟩ := hrank
  intro fuel
  induction fuel with
  | zero => intro rem out _ hlen; omega
  | succ fuel ih =>
    intro rem out hnd hlen
    by_cases hempty : rem.isEmpty = true
    · exact ⟨out, by simp only [sortLoop]; rw [if_pos hempty]⟩
    · have hne : rem ≠ [] := by
        intro hEq; rw [hEq] at hempty; exact hempty rfl
      rcases exists_min_measure (fun t => r t.name) hne with ⟨t, htrem, hminr⟩
      have hmin : ∀ u, UpEdge f t.name u → u ∉ rem := by
        intro u hupe hurem
        rcases hupe with ⟨e, he, hdown, hu⟩
        have hun : u.name = e.upstream_task := taskOf_name hco hu
        have h1 : r e.upstream_task < r e.downstream_task := hr e he
        rw [← hun, hdown] at h1
        have h2 := hminr u hurem
        omega
      rcases sortPass_ok hwf5 rem rem out false with ⟨rem1, out1, acy1, hpass⟩
      have hacy : acy1 = true :=
        sortPass_hits hwf5 hpass htrem hnd (fun x hx => hx) hmin
      obtain ⟨s1, _, _, s4, _⟩ := sortPass_spec hpass hnd (fun x hx => hx) hnd
      have hstrict : rem1.length < rem.length := by
        rcases s4 hacy with hfalse | hlt
        · exact absurd hfalse (by simp)
        · exact hlt
      rcases ih s1 (by omega) with ⟨res, hres⟩
      refine ⟨res, ?_⟩
      simp only [sortLoop]; rw [if_neg hempty, hpass]; dsimp only
      rw [if_pos hacy]; exact hres

/-! Construction of a ranking from a completed sort. -/

/-- Position of the first task carrying a given name. -/
def namePos : List Task → String → Nat
  | [], _ => 0
  | t :: rest, n => if t.name = n then 0 else namePos rest n + 1

theorem namePos_lt :
    ∀ (l1 : List Task) {l2 : List Task} {d u : Task},
      (((l1 ++ d :: l2).map Task.name).Nodup) → u ∈ l1 →
      namePos (l1 ++ d :: l2) u.name < namePos (l1 ++ d :: l2) d.name := by
  intro l1
  induction l1 with
  | nil => intro l2 d u _ hu; simp at hu
  | cons x l1 ih =>
    intro l2 d u hnd hu
    rw [List.cons_append] at hnd ⊢
    rw [List.map_cons] at hnd
    have hx_not : x.name ∉ (l1 ++ d :: l2).map Task.name :=
      (List.nodup_cons.mp hnd).1
    have hrest : ((l1 ++ d :: l2).map Task.name).Nodup :=
      (List.nodup_cons.mp hnd).2
    have hdmem : d.name ∈ (l1 ++ d :: l2).map Task.name :=
      List.mem_map.mpr ⟨d, by simp, rfl⟩
    have hxd : x.name ≠ d.name := by
      intro hEq; exact hx_not (hEq ▸ hdmem)
    rcases List.mem_cons.mp hu with rfl | hul1
    · simp only [namePos, if_pos rfl, if_neg hxd]
      exact Nat.succ_pos _
    · have humem : u.name ∈ (l1 ++ d :: l2).map Task.name :=
        List.mem_map.mpr ⟨u, List.mem_append_left _ hul1, rfl⟩
      have hxu : x.name ≠ u.name := by
        intro hEq; exact hx_not (hEq ▸ humem)
      simp only [namePos, if_neg hxu, if_neg hxd]
      exact Nat.succ_lt_succ (ih hrest hul1)

theorem taskValues_names_nodup {f : Flow}
    (hnd : (f.tasks.map Prod.fst).Nodup)
    (hco : ∀ p ∈ f.tasks, p.2.name = p.1) :
    ((taskValues f).map Task.name).Nodup := by
  have heq : (taskValues f).map Task.name = f.tasks.map Prod.fst := by
    rw [taskValues, List.map_map]
    exact List.map_congr_left hco
  rw [heq]
  exact hnd

theorem taskValues_nodup {f : Flow}
    (hnd : (f.tasks.map Prod.fst).Nodup)
    (hco : ∀ p ∈ f.tasks, p.2.name = p.1) :
    (taskValues f).Nodup :=
  (taskValues_names_nodup hnd hco).of_map

theorem ranking_of_sinv {f : Flow}
    (hnd : (f.tasks.map Prod.fst).Nodup)
    (hco : ∀ p ∈ f.tasks, p.2.name = p.1)
    (hwf5 : EdgeEndpointsPresent f)
    {res : List Task} (hinv : SInv f [] res) : HasRanking f := by
  refine ⟨fun n => namePos res n, ?_⟩
  intro e he
  obtain ⟨u, hu⟩ := Option.isSome_iff_exists.mp (hwf5 e he).1
  obtain ⟨d, hd⟩ := Option.isSome_iff_exists.mp (hwf5 e he).2
  have hun : u.name = e.upstream_task := taskOf_name hco hu
  have hdn : d.name = e.downstream_task := taskOf_name hco hd
  have hperm : res.Perm ((taskValues f).dedup) := by
    have := hinv.1
    simpa using this
  have hdres : d ∈ res :=
    hperm.mem_iff.mpr (List.mem_dedup.mpr (taskOf_mem_values hd))
  obtain ⟨l1, l2, hsp, hul1⟩ := hinv.2 e he u d hu hd hdres
  have hnames : (res.map Task.name).Nodup := by
    have h1 : (((taskValues f).dedup).map Task.name).Nodup := by
      have hsub := List.dedup_sublist (taskValues f)
      exact List.Nodup.sublist (hsub.map Task.name)
        (taskValues_names_nodup hnd hco)
    exact (hperm.map Task.name).nodup_iff.mpr h1
  rw [← hun, ← hdn, hsp]
  rw [hsp] at hnames
  exact namePos_lt l1 hnames hul1

/-- Dichotomy of the full topological sort on a well-formed flow: with a
ranking it succeeds with an order-respecting permutation, without one it
raises the acyclicity ValueError. -/
theorem sorted_tasksS_none_dichotomy (f : Flow) (hwf : WellFormed f) :
    (HasRanking f → ∃ out, f.sorted_tasksS none = .ok (out, f) ∧
        out.Perm (taskValues f) ∧
        (∀ e ∈ f.edges, ∀ u d : Task, taskOf f e.upstream_task = some u →
          taskOf f e.downstream_task = some d →
          ∃ l1 l2, out = l1 ++ d :: l2 ∧ u ∈ l1)) ∧
    (¬ HasRanking f → f.sorted_tasksS none = .error (cycleMsg, f)) := by
  obtain ⟨hnd, hco, _, _, hwf5, _⟩ := hwf
  have hvnodup : (taskValues f).Nodup := taskValues_nodup hnd hco
  have hded : (taskValues f).dedup = taskValues f := List.dedup_eq_self.mpr hvnodup
  have hinit_nodup : ((taskValues f).dedup).Nodup := List.nodup_dedup _
  have hsinv0 : SInv f ((taskValues f).dedup) [] := by
    constructor
    · simp
    · intro e he u d hu hd hdo
      simp at hdo
  constructor
  · intro hrank
    rcases sortLoop_ranking_ok hwf5 hco hrank ((taskValues f).dedup.length + 1)
      hinit_nodup (by omega) with ⟨out, hout⟩
    have hfin := sortLoop_sinv hwf5 hco _ hout hinit_nodup hsinv0
    refine ⟨out, ?_, ?_, ?_⟩
    · simp only [Flow.sorted_tasksS]
      exact hout
    · have hperm := sortLoop_perm hwf5 _ hout hinit_nodup
      rw [List.append_nil, hded] at hperm
      exact hperm
    · intro e he u d hu hd
      have hdres : d ∈ out := by
        have hperm : out.Perm ((taskValues f).dedup) := by
          have := hfin.1; simpa using this
        exact hperm.mem_iff.mpr (List.mem_dedup.mpr (taskOf_mem_values hd))
      exact hfin.2 e he u d hu hd hdres
  · intro hnorank
    rcases sortLoop_cases hwf5 ((taskValues f).dedup.length + 1)
      hinit_nodup (by omega) with ⟨res, hres⟩ | herr
    · exfalso
      have hfin := sortLoop_sinv hwf5 hco _ hres hinit_nodup hsinv0
      exact hnorank (ranking_of_sinv hnd hco hwf5 hfin)
    · simp only [Flow.sorted_tasksS]
      exact herr

/-- C1: for every well-formed Flow, `sorted_tasks()` with `root_tasks=None`
behaves as specified: when the edge relation is acyclic (admits a ranking) it
returns, without touching the flow, a permutation of all task values in which
the task named by each upstream edge endpoint appears strictly before the
task named by the downstream endpoint; and when no ranking exists (a cycle)
it raises the CycleError ValueError instead of returning. -/
theorem sorted_tasks_topological (f : Flow) (hwf : WellFormed f) :
    (HasRanking f → ∃ out, f.sorted_tasksS none = .ok (out, f) ∧
        out.Perm (taskValues f) ∧
        (∀ e ∈ f.edges, ∀ u d : Task, taskOf f e.upstream_task = some u →
          taskOf f e.downstream_task = some d →
          ∃ l1 l2, out = l1 ++ d :: l2 ∧ u ∈ l1)) ∧
    (¬ HasRanking f → f.sorted_tasksS none = .error (cycleMsg, f)) :=
  sorted_tasksS_none_dichotomy f hwf

/-- Witness for C1 at the concrete scenario flow. -/
theorem sorted_tasks_topological_witness :
    (HasRanking flowABC → ∃ out, flowABC.sorted_tasksS none = .ok (out, flowABC) ∧
        out.Perm (taskValues flowABC) ∧
        (∀ e ∈ flowABC.edges, ∀ u d : Task,
          taskOf flowABC e.upstream_task = some u →
          taskOf flowABC e.downstream_task = some d →
          ∃ l1 l2, out = l1 ++ d :: l2 ∧ u ∈ l1)) ∧
    (¬ HasRanking flowABC →
      flowABC.sorted_tasksS none = .error (cycleMsg, flowABC)) :=
  sorted_tasks_topological flowABC (by decide)

/-! Lemmas about the list model of Python sets. -/

theorem mem_setInsert {l : List Task} {a x : Task} :
    x ∈ setInsert l a ↔ x ∈ l ∨ x = a := by
  unfold setInsert
  by_cases ha : a ∈ l
  · rw [if_pos ha]
    constructor
    · exact Or.inl
    · rintro (hx | rfl)
      · exact hx
      · exact ha
  · rw [if_neg ha]
    simp

theorem setInsert_nodup {l : List Task} {a : Task} (h : l.Nodup) :
    (setInsert l a).Nodup := by
  unfold setInsert
  by_cases ha : a ∈ l
  · rw [if_pos ha]; exact h
  · rw [if_neg ha]
    rw [List.nodup_append]
    exact ⟨h, List.nodup_singleton a, by simpa using ha⟩

theorem length_setInsert_ge {l : List Task} {a : Task} :
    l.length ≤ (setInsert l a).length := by
  unfold setInsert
  by_cases ha : a ∈ l
  · rw [if_pos ha]
  · rw [if_neg ha]; simp

theorem length_setInsert_gt {l : List Task} {a : Task} (ha : a ∉ l) :
    l.length < (setInsert l a).length := by
  unfold setInsert
  rw [if_neg ha]; simp

theorem mem_setUnion {xs : List Task} :
    ∀ {l : List Task} {x : Task}, x ∈ setUnion l xs ↔ x ∈ l ∨ x ∈ xs := by
  induction xs with
  | nil => intro l x; simp [setUnion]
  | cons a rest ih =>
    intro l x
    have : setUnion l (a :: rest) = setUnion (setInsert l a) rest := rfl
    rw [this, ih, mem_setInsert]
    constructor
    · rintro ((hx | rfl) | hx)
      · exact Or.inl hx
      · exact Or.inr (List.mem_cons_self _ _)
      · exact Or.inr (List.mem_cons_of_mem _ hx)
    · rintro (hx | hx)
      · exact Or.inl (Or.inl hx)
      · rcases List.mem_cons.mp hx with rfl | hr
        · exact Or.inl (Or.inr rfl)
        · exact Or.inr hr

theorem setUnion_nodup {xs : List Task} :
    ∀ {l : List Task}, l.Nodup → (setUnion l xs).Nodup := by
  induction xs with
  | nil => intro l h; exact h
  | cons a rest ih =>
    intro l h
    exact ih (setInsert_nodup h)

/-! Frame lemmas for the closure loop. -/

theorem closurePass_flow {snapshot : List Task} :
    ∀ {tasks seen} {f : Flow} {r}, closurePass snapshot tasks seen f = r →
      (∀ t1 s1 f1, r = .ok (t1, s1, f1) → f1 = f) ∧
      (∀ m f1, r = .error (m, f1) → f1 = f) := by
  induction snapshot with
  | nil =>
    intro tasks seen f r h
    constructor
    · intro t1 s1 f1 hr; rw [hr] at h; simp [closurePass] at h; exact h.2.2.symm
    · intro m f1 hr; rw [hr] at h; simp [closurePass] at h
  | cons t rest ih =>
    intro tasks seen f r h
    simp only [closurePass] at h
    cases hds : f.downstream_tasksS t.name with
    | error e =>
      obtain ⟨m0, f0⟩ := e
      have hf0 : f0 = f := downstream_tasksS_flow_err hds
      rw [hds] at h
      dsimp only at h
      constructor
      · intro t1 s1 f1 hr; rw [hr] at h; simp at h
      · intro m f1 hr; rw [hr] at h; simp at h
        rw [← h.2, hf0]
    | ok p =>
      obtain ⟨ds, fd⟩ := p
      have hfd : fd = f := downstream_tasksS_flow_ok hds
      subst hfd
      rw [hds] at h
      dsimp only at h
      exact ih h

theorem closureLoop_flow {fuel : Nat} :
    ∀ {tasks seen} {f : Flow} {r}, closureLoop fuel tasks seen f = r →
      (∀ t1 f1, r = .ok (t1, f1) → f1 = f) ∧
      (∀ m f1, r = .error (m, f1) → f1 = f) := by
  induction fuel with
  | zero =>
    intro tasks seen f r h
    constructor
    · intro t1 f1 hr; rw [hr] at h; simp [closureLoop] at h
    · intro m f1 hr; rw [hr] at h; simp [closureLoop] at h; exact h.2.symm
  | succ fuel ih =>
    intro tasks seen f r h
    simp only [closureLoop] at h
    by_cases hcond : (tasks.all (fun t => decide (t ∈ seen)) &&
        seen.all (fun s => decide (s ∈ tasks))) = true
    · rw [if_pos hcond] at h
      constructor
      · intro t1 f1 hr; rw [hr] at h; simp at h; exact h.2.symm
      · intro m f1 hr; rw [hr] at h; simp at h
    · rw [if_neg hcond] at h
      cases hpass : closurePass (tasks.filter (fun t => !decide (t ∈ seen)))
          tasks seen f with
      | error e =>
        obtain ⟨m0, f0⟩ := e
        have hf0 : f0 = f := (closurePass_flow hpass).2 m0 f0 rfl
        rw [hpass] at h
        dsimp only at h
        constructor
        · intro t1 f1 hr; rw [hr] at h; simp at h
        · intro m f1 hr; rw [hr] at h; simp at h
          rw [← h.2, hf0]
      | ok q =>
        obtain ⟨tasks1, seen1, f1⟩ := q
        have hf1 : f1 = f := (closurePass_flow hpass).1 tasks1 seen1 f1 rfl
        subst hf1
        rw [hpass] at h
        dsimp only at h
        exact ih h

/-! Correctness of the closure loop. -/

/-- Invariant of the reachability loop: both sets are duplicate-free, the
seen set sits inside the working set, the working set stays inside the roots
and the task values, every member is reachable, everything seen has its
downstream neighbours already in the working set, and the roots are in the
working set. -/
def CInv (f : Flow) (roots0 tasks seen : List Task) : Prop :=
  tasks.Nodup ∧ seen.Nodup ∧ (∀ x ∈ seen, x ∈ tasks) ∧
  (∀ x ∈ tasks, x ∈ roots0.dedup ∨ x ∈ taskValues f) ∧
  (∀ x ∈ tasks, Reaches f roots0 x) ∧
  (∀ s ∈ seen, ∀ x, DownEdge f s.name x → x ∈ tasks) ∧
  (∀ x ∈ roots0, x ∈ tasks)

theorem closurePass_ok {f : Flow} (hwf5 : EdgeEndpointsPresent f) :
    ∀ (snapshot tasks seen : List Task),
      ∃ tasks1 seen1,
        closurePass snapshot tasks seen f = .ok (tasks1, seen1, f) := by
  intro snapshot
  induction snapshot with
  | nil => intro tasks seen; exact ⟨tasks, seen, rfl⟩
  | cons t rest ih =>
    intro tasks seen
    rcases downstream_tasksS_ok hwf5 t.name with ⟨ds, hds, _⟩
    rcases ih (setUnion tasks ds) (setInsert seen t) with ⟨t1, s1, hres⟩
    refine ⟨t1, s1, ?_⟩
    simp only [closurePass]; rw [hds]; dsimp only; exact hres

theorem closurePass_spec {f : Flow} (hwf5 : EdgeEndpointsPresent f)
    {roots0 : List Task} :
    ∀ {snapshot tasks seen tasks1 seen1 : List Task} {f1 : Flow},
      closurePass snapshot tasks seen f = .ok (tasks1, seen1, f1) →
      (∀ x ∈ snapshot, x ∈ tasks) →
      CInv f roots0 tasks seen →
      CInv f roots0 tasks1 seen1 ∧ (∀ x ∈ tasks, x ∈ tasks1) ∧
        seen.length ≤ seen1.length := by
  intro snapshot
  induction snapshot with
  | nil =>
    intro tasks seen tasks1 seen1 f1 h _ hinv
    simp [closurePass] at h
    obtain ⟨h1, h2, _⟩ := h
    subst h1; subst h2
    exact ⟨hinv, fun x hx => hx, le_refl _⟩
  | cons t rest ih =>
    intro tasks seen tasks1 seen1 f1 h hsub hinv
    obtain ⟨i1, i2, i3, i4, i5, i6, i7⟩ := hinv
    simp only [closurePass] at h
    rcases downstream_tasksS_ok hwf5 t.name with ⟨ds, hds, hdsc⟩
    rw [hds] at h
    dsimp only at h
    have httasks : t ∈ tasks := hsub t (List.mem_cons_self _ _)
    have hsub2 : ∀ x ∈ rest, x ∈ setUnion tasks ds := by
      intro x hx
      exact mem_setUnion.mpr (Or.inl (hsub x (List.mem_cons_of_mem _ hx)))
    have hinv2 : CInv f roots0 (setUnion tasks ds) (setInsert seen t) := by
      refine ⟨setUnion_nodup i1, setInsert_nodup i2, ?_, ?_, ?_, ?_, ?_⟩
      · intro x hx
        rcases mem_setInsert.mp hx with hxs | rfl
        · exact mem_setUnion.mpr (Or.inl (i3 x hxs))
        · exact mem_setUnion.mpr (Or.inl httasks)
      · intro x hx
        rcases mem_setUnion.mp hx with hxt | hxd
        · exact i4 x hxt
        · rcases (hdsc x).mp hxd with ⟨e, _, _, hdown⟩
          exact Or.inr (taskOf_mem_values hdown)
      · intro x hx
        rcases mem_setUnion.mp hx with hxt | hxd
        · exact i5 x hxt
        · rcases (hdsc x).mp hxd with ⟨e, he, hup, hdown⟩
          exact Reaches.step e (i5 t httasks) he hup hdown
      · intro s hs x hdx
        rcases mem_setInsert.mp hs with hss | rfl
        · exact mem_setUnion.mpr (Or.inl (i6 s hss x hdx))
        · exact mem_setUnion.mpr (Or.inr ((hdsc x).mpr hdx))
      · intro x hx
        exact mem_setUnion.mpr (Or.inl (i7 x hx))
    obtain ⟨c1, c2, c3⟩ := ih h hsub2 hinv2
    refine ⟨c1, ?_, ?_⟩
    · intro x hx
      exact c2 x (mem_setUnion.mpr (Or.inl hx))
    · exact le_trans length_setInsert_ge c3

theorem closurePass_seen_strict {f : Flow} {t : Task}
    {rest tasks seen tasks1 seen1 : List Task} {f1 : Flow}
    (h : closurePass (t :: rest) tasks seen f = .ok (tasks1, seen1, f1))
    (ht : t ∉ seen) : seen.length < seen1.length := by
  simp only [closurePass] at h
  cases hds : f.downstream_tasksS t.name with
  | error e => rw [hds] at h; dsimp only at h; cases h
  | ok p =>
    obtain ⟨ds, fd⟩ := p
    rw [hds] at h
    dsimp only at h
    have hmono : ∀ (snap : List Task) {ta se ta1 se1 : List Task} {ff f2 : Flow},
        closurePass snap ta se ff = .ok (ta1, se1, f2) →
        se.length ≤ se1.length := by
      intro snap
      induction snap with
      | nil =>
        intro ta se ta1 se1 ff f2 hh
        simp [closurePass] at hh
        rw [hh.2.1]
      | cons a r ihm =>
        intro ta se ta1 se1 ff f2 hh
        simp only [closurePass] at hh
        cases hd2 : ff.downstream_tasksS a.name with
        | error e2 => rw [hd2] at hh; dsimp only at hh; cases hh
        | ok q =>
          obtain ⟨ds2, fd2⟩ := q
          rw [hd2] at hh
          dsimp only at hh
          exact le_trans length_setInsert_ge (ihm hh)
    have := hmono rest h
    have hgt := length_setInsert_gt ht
    omega

theorem seen_length_bound {f : Flow} {roots0 tasks seen : List Task}
    (hinv : CInv f roots0 tasks seen) :
    seen.length ≤ roots0.dedup.length + (taskValues f).length := by
  obtain ⟨_, i2, i3, i4, _, _, _⟩ := hinv
  have hsub : seen ⊆ roots0.dedup ++ taskValues f := by
    intro x hx
    rcases i4 x (i3 x hx) with hr | hv
    · exact List.mem_append_left _ hr
    · exact List.mem_append_right _ hv
  have := (i2.subperm hsub).length_le
  simpa using this

theorem closureLoop_ok {f : Flow} (hwf5 : EdgeEndpointsPresent f)
    {roots0 : List Task} :
    ∀ (fuel : Nat) {tasks seen : List Task},
      CInv f roots0 tasks seen →
      roots0.dedup.length + (taskValues f).length + 1 ≤ fuel + seen.length →
      ∃ T, closureLoop fuel tasks seen f = .ok (T, f) ∧ T.Nodup ∧
        (∀ x, x ∈ T ↔ Reaches f roots0 x) := by
  intro fuel
  induction fuel with
  | zero =>
    intro tasks seen hinv hfuel
    have := seen_length_bound hinv
    omega
  | succ fuel ih =>
    intro tasks seen hinv hfuel
    obtain ⟨i1, i2, i3, i4, i5, i6, i7⟩ := hinv
    by_cases hcond : (tasks.all (fun t => decide (t ∈ seen)) &&
        seen.all (fun s => decide (s ∈ tasks))) = true
    · refine ⟨tasks, ?_, i1, ?_⟩
      · simp only [closureLoop]; rw [if_pos hcond]
      · intro x
        constructor
        · exact i5 x
        · intro hreach
          have hclosed : ∀ s ∈ tasks, ∀ y, DownEdge f s.name y → y ∈ tasks := by
            intro s hs y hdy
            have hseen : s ∈ seen := by
              have hc := hcond
              simp only [Bool.and_eq_true] at hc
              have h1 := (List.all_eq_true.mp hc.1) s hs
              exact of_decide_eq_true h1
            exact i6 s hseen y hdy
          induction hreach with
          | root hr => exact i7 _ hr
          | step e hru hedge hup hdown ihr =>
            exact hclosed _ ihr _ ⟨e, hedge, hup, hdown⟩
    · have hex : ∃ x ∈ tasks, x ∉ seen := by
        by_contra hno
        push_neg at hno
        apply hcond
        rw [Bool.and_eq_true]
        constructor
        · exact List.all_eq_true.mpr (fun t ht => decide_eq_true (hno t ht))
        · exact List.all_eq_true.mpr (fun s hs => decide_eq_true (i3 s hs))
      rcases hex with ⟨x0, hx0t, hx0s⟩
      have hx0snap : x0 ∈ tasks.filter (fun t => !decide (t ∈ seen)) := by
        rw [List.mem_filter]
        exact ⟨hx0t, by simp [hx0s]⟩
      have hsnap_ne : tasks.filter (fun t => !decide (t ∈ seen)) ≠ [] := by
        intro hEq; rw [hEq] at hx0snap; simp at hx0snap
      rcases closurePass_ok hwf5 (tasks.filter (fun t => !decide (t ∈ seen)))
        tasks seen with ⟨tasks1, seen1, hpass⟩
      have hsnapsub : ∀ x ∈ tasks.filter (fun t => !decide (t ∈ seen)), x ∈ tasks := by
        intro x hx; exact (List.mem_filter.mp hx).1
      obtain ⟨hinv1, _, _⟩ :=
        closurePass_spec hwf5 hpass hsnapsub ⟨i1, i2, i3, i4, i5, i6, i7⟩
      have hstrict : seen.length < seen1.length := by
        rcases List.exists_cons_of_ne_nil hsnap_ne with ⟨t0, rest0, hsnap_eq⟩
        have ht0 : t0 ∉ seen := by
          have : t0 ∈ tasks.filter (fun t => !decide (t ∈ seen)) := by
            rw [hsnap_eq]; exact List.mem_cons_self _ _
          have := (List.mem_filter.mp this).2
          simpa using this
        rw [hsnap_eq] at hpass
        exact closurePass_seen_strict hpass ht0
      rcases ih hinv1 (by omega) with ⟨T, hT, hTnd, hTmem⟩
      refine ⟨T, ?_, hTnd, hTmem⟩
      simp only [closureLoop]; rw [if_neg hcond, hpass]; dsimp only
      exact hT

/-! The root-set variant of the sort, and the sub-flow extraction. -/

theorem reaches_mem_values {f : Flow} {roots : List Task}
    (hroots : ∀ x ∈ roots, x ∈ taskValues f) {x : Task}
    (h : Reaches f roots x) : x ∈ taskValues f := by
  induction h with
  | root hr => exact hroots _ hr
  | step e _ _ _ hdown _ => exact taskOf_mem_values hdown

theorem sorted_tasksS_roots_ok {f : Flow} (hwf : WellFormed f)
    (hrank : HasRanking f) (roots : List Task) :
    ∃ out, f.sorted_tasksS (some roots) = .ok (out, f) ∧ out.Nodup ∧
      (∀ t, t ∈ out ↔ Reaches f roots t) := by
  obtain ⟨hnd, hco, _, _, hwf5, _⟩ := hwf
  have hinv0 : CInv f roots roots.dedup [] := by
    refine ⟨List.nodup_dedup _, List.nodup_nil, ?_, ?_, ?_, ?_, ?_⟩
    · intro x hx; simp at hx
    · intro x hx; exact Or.inl hx
    · intro x hx; exact Reaches.root (List.mem_dedup.mp hx)
    · intro s hs; simp at hs
    · intro x hx; exact List.mem_dedup.mpr hx
  rcases closureLoop_ok hwf5
      (roots.dedup.length + (taskValues f).length + 2) hinv0 (by omega) with
    ⟨T, hT, hTnd, hTmem⟩
  rcases sortLoop_ranking_ok hwf5 hco hrank (T.length + 1) hTnd (by omega) with
    ⟨out, hout⟩
  have hperm := sortLoop_perm hwf5 _ hout hTnd
  rw [List.append_nil] at hperm
  refine ⟨out, ?_, ?_, ?_⟩
  · simp only [Flow.sorted_tasksS]
    rw [hT]
    dsimp only
    exact hout
  · exact hperm.nodup_iff.mpr hTnd
  · intro t
    rw [hperm.mem_iff]
    exact hTmem t

theorem map_nodup_of_mem_nodup {α β : Type} (g : α → β) {l L : List α}
    (hl : l.Nodup) (hsub : ∀ x ∈ l, x ∈ L) (hLmap : (L.map g).Nodup) :
    (l.map g).Nodup := by
  have hLpair : L.Pairwise (fun a b => g a ≠ g b) := by
    have h1 : (L.map g).Pairwise (fun a b => a ≠ b) := hLmap
    rw [List.pairwise_map] at h1
    exact h1
  have hsymm : Symmetric (fun a b => g a ≠ g b) := by
    intro a b h hEq
    exact h hEq.symm
  have hforall := List.Pairwise.forall hsymm hLpair
  have hpair : l.Pairwise (fun a b => g a ≠ g b) :=
    List.Pairwise.imp_of_mem
      (fun ha hb hne => hforall (hsub _ ha) (hsub _ hb) hne) hl
  exact List.pairwise_map.mpr hpair

theorem dictSet_append {l : List (String × Task)} {n : String} {v : Task}
    (h : ∀ p ∈ l, p.1 ≠ n) : dictSet l n v = l ++ [(n, v)] := by
  induction l with
  | nil => simp [dictSet]
  | cons p rest ih =>
    obtain ⟨k1, v1⟩ := p
    have hk1 : k1 ≠ n := h (k1, v1) (List.mem_cons_self _ _)
    simp only [dictSet, if_neg hk1, List.cons_append]
    rw [ih (fun q hq => h q (List.mem_cons_of_mem _ hq))]

theorem add_taskS_fresh {g : Flow} {t : Task}
    (hslug : ∀ u ∈ taskValues g, u.slug ≠ t.slug)
    (hname : ∀ p ∈ g.tasks, p.1 ≠ t.name) :
    g.add_taskS t = .ok { g with tasks := g.tasks ++ [(t.name, t)] } := by
  unfold Flow.add_taskS
  have hany : (taskValues g).any (fun u => decide (u.slug = t.slug)) = false := by
    rw [List.any_eq_false]
    intro u hu
    simp [hslug u hu]
  have hcond : ¬ ((taskValues g).any (fun u => decide (u.slug = t.slug)) = true) := by
    rw [hany]; simp
  rw [if_neg hcond, dictSet_append hname]

theorem addTasksFold_ok :
    ∀ {ts : List Task} {g : Flow},
      (∀ t ∈ ts, ∀ u ∈ taskValues g, u.slug ≠ t.slug) →
      (∀ t ∈ ts, ∀ p ∈ g.tasks, p.1 ≠ t.name) →
      (ts.map Task.slug).Nodup → (ts.map Task.name).Nodup →
      addTasksFold ts g =
        .ok { g with tasks := g.tasks ++ ts.map (fun t => (t.name, t)) } := by
  intro ts
  induction ts with
  | nil => intro g _ _ _ _; simp [addTasksFold]
  | cons t rest ih =>
    intro g hslug hname hsnd hnnd
    have hadd := add_taskS_fresh (hslug t (List.mem_cons_self _ _))
      (hname t (List.mem_cons_self _ _))
    simp only [addTasksFold]
    rw [hadd]
    dsimp only
    have hv1 : taskValues { g with tasks := g.tasks ++ [(t.name, t)] } =
        taskValues g ++ [t] := by
      simp [taskValues]
    have hsl : ∀ x ∈ rest,
        ∀ u ∈ taskValues { g with tasks := g.tasks ++ [(t.name, t)] },
          u.slug ≠ x.slug := by
      intro x hx u hu
      rw [hv1] at hu
      rcases List.mem_append.mp hu with hug | hut
      · exact hslug x (List.mem_cons_of_mem _ hx) u hug
      · have hut2 : u = t := by simpa using hut
        subst hut2
        have hts : u.slug ∉ rest.map Task.slug :=
          (List.nodup_cons.mp hsnd).1
        intro hEq
        exact hts (hEq ▸ List.mem_map.mpr ⟨x, hx, rfl⟩)
    have hnm : ∀ x ∈ rest,
        ∀ p ∈ ({ g with tasks := g.tasks ++ [(t.name, t)] } : Flow).tasks,
          p.1 ≠ x.name := by
      intro x hx p hp
      rcases List.mem_append.mp hp with hpg | hpt
      · exact hname x (List.mem_cons_of_mem _ hx) p hpg
      · have hpt2 : p = (t.name, t) := by simpa using hpt
        subst hpt2
        have hts : t.name ∉ rest.map Task.name :=
          (List.nodup_cons.mp hnnd).1
        intro hEq
        have hEq2 : t.name = x.name := hEq
        rw [hEq2] at hts
        exact hts (List.mem_map.mpr ⟨x, hx, rfl⟩)
    rw [ih hsl hnm (List.nodup_cons.mp hsnd).2 (List.nodup_cons.mp hnnd).2]
    simp [List.append_assoc]

/-- C8: for every well-formed acyclic Flow and every root set drawn from its
tasks, `sorted_tasks(root_tasks=R)` succeeds and its task set is exactly the
transitive downstream closure of R; `sub_flow(root_tasks=R)` succeeds, its
tasks are exactly that closure, and its edges are exactly the edges of the
original Flow both of whose endpoint names belong to the closure. -/
theorem sub_flow_closure (f : Flow) (roots : List Task) (hwf : WellFormed f)
    (hrank : HasRanking f) (hroots : ∀ x ∈ roots, x ∈ taskValues f) :
    ∃ out g, f.sorted_tasksS (some roots) = .ok (out, f) ∧
      (∀ t, t ∈ out ↔ Reaches f roots t) ∧
      f.sub_flowE (some roots) = .ok g ∧
      (∀ t, t ∈ taskValues g ↔ Reaches f roots t) ∧
      (∀ e, e ∈ g.edges ↔ e ∈ f.edges ∧
        (∃ u, Reaches f roots u ∧ u.name = e.upstream_task) ∧
        (∃ d, Reaches f roots d ∧ d.name = e.downstream_task)) := by
  rcases sorted_tasksS_roots_ok hwf hrank roots with ⟨out, hout, houtnd, houtmem⟩
  have hwf2 := hwf
  obtain ⟨hnd, hco, hslugs, _, hwf5, _⟩ := hwf2
  have houtsub : ∀ x ∈ out, x ∈ taskValues f :=
    fun x hx => reaches_mem_values hroots ((houtmem x).mp hx)
  have hvslugs : ((taskValues f).map Task.slug).Nodup := by
    have heq : (taskValues f).map Task.slug = f.tasks.map (fun p => p.2.slug) := by
      rw [taskValues, List.map_map]; rfl
    rw [heq]; exact hslugs
  have hslugmap : (out.map Task.slug).Nodup :=
    map_nodup_of_mem_nodup _ houtnd houtsub hvslugs
  have hnamemap : (out.map Task.name).Nodup :=
    map_nodup_of_mem_nodup _ houtnd houtsub (taskValues_names_nodup hnd hco)
  have hfold := @addTasksFold_ok out { f with tasks := [], edges := [] }
    (by intro x hx u hu; simp [taskValues] at hu)
    (by intro x hx p hp; simp at hp)
    hslugmap hnamemap
  refine ⟨out,
    { f with tasks := out.map (fun t => (t.name, t)),
             edges := f.edges.filter (fun e =>
               (dictGet (out.map (fun t => (t.name, t))) e.upstream_task).isSome &&
               (dictGet (out.map (fun t => (t.name, t))) e.downstream_task).isSome) },
    hout, houtmem, ?_, ?_, ?_⟩
  · simp only [Flow.sub_flowE]
    rw [hout]
    dsimp only
    rw [hfold]
    simp
  · intro t
    rw [← houtmem t]
    simp only [taskValues]
    constructor
    · intro ht
      rcases List.mem_map.mp ht with ⟨p, hp, hp2⟩
      rcases List.mem_map.mp hp with ⟨x, hx, hx2⟩
      rw [← hp2, ← hx2]
      exact hx
    · intro ht
      exact List.mem_map.mpr ⟨(t.name, t),
        List.mem_map.mpr ⟨t, ht, rfl⟩, rfl⟩
  · intro e
    rw [List.mem_filter]
    have hup : ((dictGet (out.map (fun t => (t.name, t))) e.upstream_task).isSome)
        ↔ ∃ u, Reaches f roots u ∧ u.name = e.upstream_task := by
      rw [dictGet_isSome_iff]
      constructor
      · rintro ⟨p, hp, hp2⟩
        rcases List.mem_map.mp hp with ⟨x, hx, hx2⟩
        exact ⟨x, (houtmem x).mp hx, by rw [← hp2, ← hx2]⟩
      · rintro ⟨u, hu, hu2⟩
        exact ⟨(u.name, u), List.mem_map.mpr ⟨u, (houtmem u).mpr hu, rfl⟩, hu2⟩
    have hdn : ((dictGet (out.map (fun t => (t.name, t))) e.downstream_task).isSome)
        ↔ ∃ d, Reaches f roots d ∧ d.name = e.downstream_task := by
      rw [dictGet_isSome_iff]
      constructor
      · rintro ⟨p, hp, hp2⟩
        rcases List.mem_map.mp hp with ⟨x, hx, hx2⟩
        exact ⟨x, (houtmem x).mp hx, by rw [← hp2, ← hx2]⟩
      · rintro ⟨d, hd, hd2⟩
        exact ⟨(d.name, d), List.mem_map.mpr ⟨d, (houtmem d).mpr hd, rfl⟩, hd2⟩
    constructor
    · rintro ⟨he, hpred⟩
      rw [Bool.and_eq_true] at hpred
      exact ⟨he, hup.mp (by simpa using hpred.1), hdn.mp (by simpa using hpred.2)⟩
    · rintro ⟨he, hu, hd⟩
      refine ⟨he, ?_⟩
      rw [Bool.and_eq_true]
      exact ⟨by simpa using hup.mpr hu, by simpa using hdn.mpr hd⟩

/-- Witness for C8 at the concrete scenario flow with root set containing
task B. -/
theorem sub_flow_closure_witness :
    ∃ out g, flowABC.sorted_tasksS (some [taskB]) = .ok (out, flowABC) ∧
      (∀ t, t ∈ out ↔ Reaches flowABC [taskB] t) ∧
      flowABC.sub_flowE (some [taskB]) = .ok g ∧
      (∀ t, t ∈ taskValues g ↔ Reaches flowABC [taskB] t) ∧
      (∀ e, e ∈ g.edges ↔ e ∈ flowABC.edges ∧
        (∃ u, Reaches flowABC [taskB] u ∧ u.name = e.upstream_task) ∧
        (∃ d, Reaches flowABC [taskB] d ∧ d.name = e.downstream_task)) :=
  sub_flow_closure flowABC [taskB] (by decide)
    ⟨fun n => if n = "P" then 0 else if n = "A" then 1 else if n = "B" then 2 else 3,
      by decide⟩
    (by decide)

/-! Claims about the dispatch layer and the equality operator. -/

/-- C3 evidence: `DaskExecutor.submit` called on an executor that has not
been started falls through both branches of its conditional and silently
returns the implicit Python `None` instead of raising any error; no branch
of the method can raise, so the NotStartedError the design demands never
happens. -/
theorem dask_submit_unstarted_returns_none {α : Type} (c : ClientAttr) (r : α) :
    submitE ⟨false, c⟩ r = SubmitOutcome.pyNone := rfl

/-- C4 evidence: comparing any two Flow objects always raises.  The property
`_comps` calls the builtin `tuple` with six positional arguments, which is a
TypeError in Python, so `__eq__` can never return a boolean. -/
theorem flow_eq_always_raises (f g : Flow) :
    f.eqE g = .error "TypeError: tuple expected at most 1 argument, got 6" := by
  simp [Flow.eqE, Flow.compsE, pyTupleCall]
  rfl

/-- C5 evidence: `DaskExecutor.wait` never reads its `timeout` parameter, so
its outcome is identical for every timeout value, and its four fixed gather
passes do not fully unwrap a future nested five levels deep. -/
theorem dask_wait_ignores_timeout :
    (∀ (ex : DaskExecutorState) (futures : List DVal) (t1 t2 : Option Nat),
      waitE ex futures t1 = waitE ex futures t2) ∧
    waitE ⟨true, ClientAttr.active⟩
        [DVal.future (DVal.future (DVal.future (DVal.future
          (DVal.future (DVal.base 0)))))] none
      = .ok [DVal.future (DVal.base 0)] := by
  constructor
  · intro ex futures t1 t2; rfl
  · rfl

/-- C9 counterexample: `wait([])` on a never-started DaskExecutor does not
return the empty list; it raises AttributeError, because the method first
evaluates `len(self.client.futures)` and the `client` attribute is only ever
assigned inside `start`. -/
theorem dask_wait_unstarted_empty_raises :
    waitE ⟨false, ClientAttr.unset⟩ [] none =
      .error "AttributeError: DaskExecutor object has no attribute client" ∧
    ¬ waitE ⟨false, ClientAttr.unset⟩ [] none = .ok [] := by
  constructor
  · rfl
  · intro h
    cases h

/-- C9 amended: `wait([])` returns the empty list immediately on a started
executor (live client), for every timeout value; before `start` it raises
instead. -/
theorem dask_wait_empty_started (t : Option Nat) :
    waitE ⟨true, ClientAttr.active⟩ [] t = .ok [] := rfl

/-! Frame theorem for the query operations. -/

/-- The flow state after a method call, whether it returned or raised. -/
def flowAfter {α : Type} : FlowRes α → Flow
  | .ok (_, f) => f
  | .error (_, f) => f

theorem flowAfter_of_flow {α : Type} {r : FlowRes α} {f : Flow}
    (h1 : ∀ a f1, r = .ok (a, f1) → f1 = f)
    (h2 : ∀ m f1, r = .error (m, f1) → f1 = f) : flowAfter r = f := by
  cases r with
  | ok p => obtain ⟨a, f1⟩ := p; exact h1 a f1 rfl
  | error e => obtain ⟨m, f1⟩ := e; exact h2 m f1 rfl

theorem sorted_tasksS_flowAfter (f : Flow) (roots : Option (List Task)) :
    flowAfter (f.sorted_tasksS roots) = f := by
  cases roots with
  | none =>
    simp only [Flow.sorted_tasksS]
    exact flowAfter_of_flow
      (fun a f1 hr => (sortLoop_flow hr).1 a f1 rfl)
      (fun m f1 hr => (sortLoop_flow hr).2 m f1 rfl)
  | some rs =>
    simp only [Flow.sorted_tasksS]
    cases h : closureLoop (rs.dedup.length + (taskValues f).length + 2)
        rs.dedup [] f with
    | error e =>
      obtain ⟨m, f1⟩ := e
      have hf1 : f1 = f := (closureLoop_flow h).2 m f1 rfl
      dsimp only [flowAfter]
      exact hf1
    | ok p =>
      obtain ⟨T, f1⟩ := p
      have hf1 : f1 = f := (closureLoop_flow h).1 T f1 rfl
      subst hf1
      dsimp only
      exact flowAfter_of_flow
        (fun a f2 hr => (sortLoop_flow hr).1 a f2 rfl)
        (fun m f2 hr => (sortLoop_flow hr).2 m f2 rfl)

/-- C10: every query operation of the Flow API leaves the flow state, its
task mapping and its edge set included, exactly as it was, both when the
operation returns normally and when it raises. -/
theorem queries_leave_flow_unchanged (f : Flow) (n : String) (b : Bool)
    (roots : Option (List Task)) :
    flowAfter (f.get_taskS n) = f ∧
    flowAfter (f.upstream_tasksS n) = f ∧
    flowAfter (f.downstream_tasksS n) = f ∧
    flowAfter (f.edges_toS n) = f ∧
    flowAfter (f.edges_fromS n) = f ∧
    flowAfter f.root_tasksS = f ∧
    flowAfter f.terminal_tasksS = f ∧
    flowAfter (f.parametersS b) = f ∧
    flowAfter (f.sorted_tasksS roots) = f := by
  refine ⟨?_, ?_, ?_, rfl, rfl, rfl, rfl, rfl, sorted_tasksS_flowAfter f roots⟩
  · cases h : taskOf f n <;> simp [Flow.get_taskS, h, flowAfter]
  · exact flowAfter_of_flow
      (fun a f1 hr => (getTasksGo_flow hr).1 a f1 rfl)
      (fun m f1 hr => (getTasksGo_flow hr).2 m f1 rfl)
  · exact flowAfter_of_flow
      (fun a f1 hr => (getTasksGo_flow hr).1 a f1 rfl)
      (fun m f1 hr => (getTasksGo_flow hr).2 m f1 rfl)

/-! Lemmas about the mutating operations. -/

theorem add_taskS_ok_state {g : Flow} {t : Task} {f1 : Flow}
    (h : g.add_taskS t = .ok f1) :
    f1 = { g with tasks := dictSet g.tasks t.name t } := by
  unfold Flow.add_taskS at h
  by_cases hc : ((taskValues g).any fun u => decide (u.slug = t.slug)) = true
  · rw [if_pos hc] at h; cases h
  · rw [if_neg hc] at h
    injection h with h2
    exact h2.symm

theorem add_taskS_err_state {g : Flow} {t : Task} {m : String} {f1 : Flow}
    (h : g.add_taskS t = .error (m, f1)) : f1 = g := by
  unfold Flow.add_taskS at h
  by_cases hc : ((taskValues g).any fun u => decide (u.slug = t.slug)) = true
  · rw [if_pos hc] at h
    injection h with h2
    exact (congrArg Prod.snd h2).symm
  · rw [if_neg hc] at h; cases h

theorem mem_edgeInsert {l : List Edge} {a x : Edge} :
    x ∈ edgeInsert l a ↔ x ∈ l ∨ x = a := by
  unfold edgeInsert
  by_cases ha : a ∈ l
  · rw [if_pos ha]
    constructor
    · exact Or.inl
    · rintro (hx | rfl)
      · exact hx
      · exact ha
  · rw [if_neg ha]
    simp

theorem noDupKey_insert {l : List Edge} {e : Edge}
    (h : l.Pairwise RKey) (hnew : ∀ e2 ∈ l, RKey e2 e) :
    (edgeInsert l e).Pairwise RKey := by
  unfold edgeInsert
  by_cases he : e ∈ l
  · rw [if_pos he]; exact h
  · rw [if_neg he]
    rw [List.pairwise_append]
    refine ⟨h, List.pairwise_singleton _ _, ?_⟩
    intro a ha b hb
    have hb2 : b = e := by simpa using hb
    subst hb2
    exact hnew a ha

theorem sorted_ok_state {f : Flow} {r : Option (List Task)} {a : List Task}
    {f1 : Flow} (h : f.sorted_tasksS r = .ok (a, f1)) : f1 = f := by
  have hfa := sorted_tasksS_flowAfter f r
  rw [h] at hfa
  simpa [flowAfter] using hfa

theorem sorted_err_state {f : Flow} {r : Option (List Task)} {m : String}
    {f1 : Flow} (h : f.sorted_tasksS r = .error (m, f1)) : f1 = f := by
  have hfa := sorted_tasksS_flowAfter f r
  rw [h] at hfa
  simpa [flowAfter] using hfa

theorem add_edgeCommit_noDupKey {g : Flow} {edge : Edge} (hinv : NoDupKey g)
    (hnew : ∀ e2 ∈ g.edges, RKey e2 edge) :
    (∀ f1, add_edgeCommit g edge = .ok f1 → NoDupKey f1) ∧
    (∀ m f1, add_edgeCommit g edge = .error (m, f1) → NoDupKey f1) := by
  have hf3 : NoDupKey ({ g with edges := edgeInsert g.edges edge } : Flow) :=
    noDupKey_insert hinv hnew
  constructor
  · intro f1 h
    simp only [add_edgeCommit] at h
    cases h3 : ({ g with edges := edgeInsert g.edges edge } : Flow).sorted_tasksS
        none with
    | error e1 => rw [h3] at h; dsimp only at h; cases h
    | ok p =>
      obtain ⟨out, f4⟩ := p
      have hf4 := sorted_ok_state h3
      rw [h3] at h
      dsimp only at h
      injection h with h2
      rw [← h2, hf4]
      exact hf3
  · intro m f1 h
    simp only [add_edgeCommit] at h
    cases h3 : ({ g with edges := edgeInsert g.edges edge } : Flow).sorted_tasksS
        none with
    | error e1 =>
      obtain ⟨m1, g1⟩ := e1
      have hg1 := sorted_err_state h3
      rw [h3] at h
      dsimp only at h
      injection h with h2
      have : f1 = g1 := (congrArg Prod.snd h2).symm
      rw [this, hg1]
      exact hf3
    | ok p =>
      obtain ⟨out, f4⟩ := p
      rw [h3] at h
      dsimp only at h
      cases h

theorem wf_insert_edge {f : Flow} (hwf : WellFormed f) {up down : Task}
    {key : Option String}
    (hup : up ∈ taskValues f) (hdown : down ∈ taskValues f)
    (hkey : ∀ e2 ∈ f.edges, RKey e2 ⟨up.name, down.name, key⟩) :
    WellFormed
      { f with edges := edgeInsert f.edges ⟨up.name, down.name, key⟩ } := by
  obtain ⟨hnd, hco, hslugs, hednd, hwf5, hkeyinv⟩ := hwf
  refine ⟨hnd, hco, hslugs, ?_, ?_, ?_⟩
  · show (edgeInsert f.edges ⟨up.name, down.name, key⟩).Nodup
    unfold edgeInsert
    by_cases he : (⟨up.name, down.name, key⟩ : Edge) ∈ f.edges
    · rw [if_pos he]; exact hednd
    · rw [if_neg he]
      rw [List.nodup_append]
      exact ⟨hednd, List.nodup_singleton _, by simpa using he⟩
  · intro e he2
    have he3 : e ∈ edgeInsert f.edges ⟨up.name, down.name, key⟩ := he2
    rcases mem_edgeInsert.mp he3 with hold | rfl
    · exact hwf5 e hold
    · constructor
      · show (taskOf f up.name).isSome
        rw [taskOf_of_mem_values hnd hco hup]
        rfl
      · show (taskOf f down.name).isSome
        rw [taskOf_of_mem_values hnd hco hdown]
        rfl
  · exact noDupKey_insert hkeyinv hkey

theorem add_edgeS_endpoints_present {f : Flow} {up down : Task}
    {key : Option String}
    (hup : up ∈ taskValues f) (hdown : down ∈ taskValues f) :
    f.add_edgeS up down key =
      match key with
      | some kk =>
        if f.edges.any (fun e =>
            decide (e.downstream_task = down.name) &&
            decide (e.key = some kk)) then
          .error ("An edge to task " ++ down.name ++ " with key \"" ++ kk
              ++ "\" already exists!", f)
        else add_edgeCommit f ⟨up.name, down.name, key⟩
      | none => add_edgeCommit f ⟨up.name, down.name, key⟩ := by
  unfold Flow.add_edgeS
  rw [if_pos hup]
  dsimp only
  rw [if_pos hdown]

/-- C7: with both endpoints among the task values, a second keyed edge into
the same downstream task raises the DuplicateKeyError ValueError with the
flow untouched, and both mutating operations, `add_edge` with any key and
`add_task`, preserve the no-duplicate-key invariant on every path, the
raising ones included. -/
theorem duplicate_key_rejected (f : Flow) (up down : Task) (kk : String)
    (hup : up ∈ taskValues f) (hdown : down ∈ taskValues f) :
    ((∃ e ∈ f.edges, e.downstream_task = down.name ∧ e.key = some kk) →
      f.add_edgeS up down (some kk) =
        .error ("An edge to task " ++ down.name ++ " with key \"" ++ kk
          ++ "\" already exists!", f)) ∧
    (∀ key : Option String, NoDupKey f →
      (∀ f1, f.add_edgeS up down key = .ok f1 → NoDupKey f1) ∧
      (∀ m f1, f.add_edgeS up down key = .error (m, f1) → NoDupKey f1)) ∧
    (∀ t : Task, NoDupKey f →
      (∀ f1, f.add_taskS t = .ok f1 → NoDupKey f1) ∧
      (∀ m f1, f.add_taskS t = .error (m, f1) → NoDupKey f1)) := by
  refine ⟨?_, ?_, ?_⟩
  · rintro ⟨e, he, hd, hk⟩
    rw [add_edgeS_endpoints_present hup hdown]
    dsimp only
    rw [if_pos]
    exact List.any_eq_true.mpr
      ⟨e, he, by rw [Bool.and_eq_true]; exact ⟨decide_eq_true hd, decide_eq_true hk⟩⟩
  · intro key hinv
    rw [add_edgeS_endpoints_present hup hdown]
    cases key with
    | none =>
      dsimp only
      refine add_edgeCommit_noDupKey hinv ?_
      intro e2 he2
      rintro ⟨_, hkq, hne⟩
      exact hne hkq
    | some kk2 =>
      dsimp only
      by_cases hchk : (f.edges.any (fun e =>
          decide (e.downstream_task = down.name) &&
          decide (e.key = some kk2))) = true
      · rw [if_pos hchk]
        constructor
        · intro f1 h; cases h
        · intro m f1 h
          injection h with h2
          have hf1 : f1 = f := (congrArg Prod.snd h2).symm
          rw [hf1]
          exact hinv
      · rw [if_neg hchk]
        refine add_edgeCommit_noDupKey hinv ?_
        intro e2 he2
        rintro ⟨hdq, hkq, _⟩
        exact hchk (List.any_eq_true.mpr ⟨e2, he2, by
          rw [Bool.and_eq_true]
          exact ⟨decide_eq_true hdq, decide_eq_true hkq⟩⟩)
  · intro t hinv
    constructor
    · intro f1 h
      rw [add_taskS_ok_state h]
      exact hinv
    · intro m f1 h
      rw [add_taskS_err_state h]
      exact hinv

/-- Witness for C7: in the scenario flow the edge B to C already carries key
b_result, so inserting A to C under the same key raises, and the invariant
is preserved by every mutating call. -/
theorem duplicate_key_rejected_witness :
    ((∃ e ∈ flowABC.edges, e.downstream_task = taskC.name ∧ e.key = some "b_result") →
      flowABC.add_edgeS taskA taskC (some "b_result") =
        .error ("An edge to task " ++ taskC.name ++ " with key \"" ++ "b_result"
          ++ "\" already exists!", flowABC)) ∧
    (∀ key : Option String, NoDupKey flowABC →
      (∀ f1, flowABC.add_edgeS taskA taskC key = .ok f1 → NoDupKey f1) ∧
      (∀ m f1, flowABC.add_edgeS taskA taskC key = .error (m, f1) → NoDupKey f1)) ∧
    (∀ t : Task, NoDupKey flowABC →
      (∀ f1, flowABC.add_taskS t = .ok f1 → NoDupKey f1) ∧
      (∀ m f1, flowABC.add_taskS t = .error (m, f1) → NoDupKey f1)) :=
  duplicate_key_rejected flowABC taskA taskC "b_result" (by decide) (by decide)

/-- The state the two-task flow is left in after the failed cyclic
insertion: the cyclic edge is committed. -/
def flowABCycle : Flow :=
  { flowAB with edges := flowAB.edges ++
      [{ upstream_task := "B", downstream_task := "A", key := none }] }

/-- C2 counterexample: on the two-task flow with edge A to B, adding the
edge B to A raises the acyclicity ValueError, but the flow afterwards holds
the cyclic edge: its edge set is not what it was before the call, refuting
the claimed atomicity at this input. -/
theorem add_edge_cycle_not_atomic :
    flowAB.add_edgeS taskB taskA none = .error (cycleMsg, flowABCycle) ∧
    ¬ flowABCycle.edges = flowAB.edges := by
  constructor
  · rfl
  · decide

/-- C2 amended: under the preconditions of a plain insertion (well-formed
flow, both endpoints already present, fresh edge, no key collision),
`add_edge` raises the CycleError ValueError exactly when the extended edge
relation admits no ranking, and every raise leaves the flow equal to the
pre-flow with the new edge appended to the edge set: the cyclic edge is
committed, not rolled back. -/
theorem add_edge_cycle_commits (f : Flow) (up down : Task)
    (key : Option String) (hwf : WellFormed f)
    (hup : up ∈ taskValues f) (hdown : down ∈ taskValues f)
    (hkey : ∀ e2 ∈ f.edges, RKey e2 ⟨up.name, down.name, key⟩)
    (hnew : (⟨up.name, down.name, key⟩ : Edge) ∉ f.edges) :
    (¬ HasRanking { f with edges := f.edges ++ [⟨up.name, down.name, key⟩] } →
      f.add_edgeS up down key =
        .error (cycleMsg,
          { f with edges := f.edges ++ [⟨up.name, down.name, key⟩] })) ∧
    (∀ m f1, f.add_edgeS up down key = .error (m, f1) →
      m = cycleMsg ∧
      f1 = { f with edges := f.edges ++ [⟨up.name, down.name, key⟩] } ∧
      f1.edges ≠ f.edges) := by
  have hins : edgeInsert f.edges ⟨up.name, down.name, key⟩ =
      f.edges ++ [⟨up.name, down.name, key⟩] := by
    unfold edgeInsert; rw [if_neg hnew]
  have hwf3 := wf_insert_edge hwf hup hdown hkey
  rw [hins] at hwf3
  have hdich := sorted_tasksS_none_dichotomy _ hwf3
  have hred : f.add_edgeS up down key =
      add_edgeCommit f ⟨up.name, down.name, key⟩ := by
    rw [add_edgeS_endpoints_present hup hdown]
    cases key with
    | none => rfl
    | some kk =>
      dsimp only
      by_cases hchk : (f.edges.any (fun e =>
          decide (e.downstream_task = down.name) &&
          decide (e.key = some kk))) = true
      · exfalso
        rcases List.any_eq_true.mp hchk with ⟨e2, he2, hprop⟩
        rw [Bool.and_eq_true] at hprop
        have hk2 : e2.key = some kk := of_decide_eq_true hprop.2
        exact hkey e2 he2
          ⟨of_decide_eq_true hprop.1, hk2, by rw [hk2]; simp⟩
      · rw [if_neg hchk]
  constructor
  · intro hnr
    have herr := hdich.2 hnr
    rw [hred]
    simp only [add_edgeCommit]
    rw [hins, herr]
  · intro m f1 h
    rw [hred] at h
    simp only [add_edgeCommit] at h
    rw [hins] at h
    rcases Classical.em
      (HasRanking { f with edges := f.edges ++ [⟨up.name, down.name, key⟩] })
      with hr | hnr
    · rcases hdich.1 hr with ⟨out, hok, _, _⟩
      rw [hok] at h
      dsimp only at h
      cases h
    · have herr := hdich.2 hnr
      rw [herr] at h
      dsimp only at h
      injection h with h2
      have hm : m = cycleMsg := (congrArg Prod.fst h2).symm
      have hf1 : f1 = { f with edges := f.edges ++ [⟨up.name, down.name, key⟩] } :=
        (congrArg Prod.snd h2).symm
      refine ⟨hm, hf1, ?_⟩
      rw [hf1]
      intro hEq
      have hlen := congrArg List.length hEq
      simp at hlen

/-- Witness for the amended C2 at the two-task flow and the cyclic edge B to
A. -/
theorem add_edge_cycle_commits_witness :
    (¬ HasRanking { flowAB with edges := flowAB.edges ++
        [⟨taskB.name, taskA.name, none⟩] } →
      flowAB.add_edgeS taskB taskA none =
        .error (cycleMsg,
          { flowAB with edges := flowAB.edges ++
              [⟨taskB.name, taskA.name, none⟩] })) ∧
    (∀ m f1, flowAB.add_edgeS taskB taskA none = .error (m, f1) →
      m = cycleMsg ∧
      f1 = { flowAB with edges := flowAB.edges ++
          [⟨taskB.name, taskA.name, none⟩] } ∧
      f1.edges ≠ flowAB.edges) :=
  add_edge_cycle_commits flowAB taskB taskA none (by decide) (by decide)
    (by decide) (by decide) (by decide)

/-! Round trip of serialize followed by safe_deserialize. -/

theorem tasks_eq_values_pair {f : Flow}
    (hco : ∀ p ∈ f.tasks, p.2.name = p.1) :
    (taskValues f).map (fun t => (t.name, t)) = f.tasks := by
  have h1 : (taskValues f).map (fun t => (t.name, t)) =
      f.tasks.map (fun p => (p.2.name, p.2)) := by
    rw [taskValues, List.map_map]; rfl
  rw [h1]
  have h2 : f.tasks.map (fun p => (p.2.name, p.2)) = f.tasks.map id :=
    List.map_congr_left (fun p hp => by rw [hco p hp]; rfl)
  rw [h2, List.map_id]

theorem taskOf_pairlist {out : List Task} (hnd : (out.map Task.name).Nodup)
    {t : Task} (ht : t ∈ out) :
    dictGet (out.map (fun t => (t.name, t))) t.name = some t := by
  apply dictGet_of_mem
  · rw [List.map_map]
    exact hnd
  · intro p hp
    rcases List.mem_map.mp hp with ⟨x, _, hx2⟩
    rw [← hx2]
  · rw [List.map_map]
    simpa using ht

theorem hasRanking_of_sub {f g : Flow} (h : HasRanking f)
    (hsub : ∀ e ∈ g.edges, e ∈ f.edges) : HasRanking g := by
  obtain ⟨r, hr⟩ := h
  exact ⟨r, fun e he => hr e (hsub e he)⟩

theorem wf_of_pair_tasks {f : Flow} (hwf : WellFormed f) {out : List Task}
    (hperm : out.Perm (taskValues f)) {ed : List Edge}
    (hsub : List.Sublist ed f.edges) (gb : Flow)
    (hgt : gb.tasks = out.map (fun t => (t.name, t))) (hge : gb.edges = ed) :
    WellFormed gb := by
  obtain ⟨hnd, hco, hslugs, hednd, hwf5, hkeyinv⟩ := hwf
  have hvnames : ((taskValues f).map Task.name).Nodup :=
    taskValues_names_nodup hnd hco
  have honames : (out.map Task.name).Nodup :=
    (hperm.map Task.name).nodup_iff.mpr hvnames
  refine ⟨?_, ?_, ?_, ?_, ?_, ?_⟩
  · rw [hgt, List.map_map]
    exact honames
  · intro p hp
    rw [hgt] at hp
    rcases List.mem_map.mp hp with ⟨x, _, hx2⟩
    rw [← hx2]
  · rw [hgt, List.map_map]
    have hvslugs : ((taskValues f).map Task.slug).Nodup := by
      have heq2 : (taskValues f).map Task.slug =
          f.tasks.map (fun p => p.2.slug) := by
        rw [taskValues, List.map_map]; rfl
      rw [heq2]; exact hslugs
    have hoslugs : (out.map Task.slug).Nodup :=
      (hperm.map Task.slug).nodup_iff.mpr hvslugs
    simpa using hoslugs
  · rw [hge]
    exact hednd.sublist hsub
  · intro e2 he2
    rw [hge] at he2
    have hef : e2 ∈ f.edges := hsub.subset he2
    obtain ⟨hu, hd⟩ := hwf5 e2 hef
    rcases Option.isSome_iff_exists.mp hu with ⟨u0, hu0⟩
    rcases Option.isSome_iff_exists.mp hd with ⟨d0, hd0⟩
    have hu0out : u0 ∈ out := hperm.mem_iff.mpr (taskOf_mem_values hu0)
    have hd0out : d0 ∈ out := hperm.mem_iff.mpr (taskOf_mem_values hd0)
    constructor
    · show (taskOf gb e2.upstream_task).isSome
      rw [← taskOf_name hco hu0]
      show (dictGet gb.tasks u0.name).isSome
      rw [hgt, taskOf_pairlist honames hu0out]
      rfl
    · show (taskOf gb e2.downstream_task).isSome
      rw [← taskOf_name hco hd0]
      show (dictGet gb.tasks d0.name).isSome
      rw [hgt, taskOf_pairlist honames hd0out]
      rfl
  · show gb.edges.Pairwise RKey
    rw [hge]
    exact hkeyinv.sublist hsub

theorem addEdgesFold_spec {f : Flow} (hwf : WellFormed f)
    (hrank : HasRanking f) {out : List Task}
    (hperm : out.Perm (taskValues f)) :
    ∀ (es done : List Edge) (gb : Flow),
      f.edges = done ++ es →
      gb.tasks = out.map (fun t => (t.name, t)) →
      gb.edges = done →
      ∃ g, addEdgesFold (es.map Edge.serializeRec) gb = .ok g ∧
        g = { gb with edges := f.edges } := by
  have hwfc := hwf
  obtain ⟨hnd, hco, hslugs, hednd, hwf5, hkeyinv⟩ := hwfc
  have hvnames : ((taskValues f).map Task.name).Nodup :=
    taskValues_names_nodup hnd hco
  have honames : (out.map Task.name).Nodup :=
    (hperm.map Task.name).nodup_iff.mpr hvnames
  intro es
  induction es with
  | nil =>
    intro done gb hsplit hgt hge
    refine ⟨gb, rfl, ?_⟩
    rw [hsplit, List.append_nil, ← hge]
  | cons e es ih =>
    intro done gb hsplit hgt hge
    have hef : e ∈ f.edges := by
      rw [hsplit]; exact List.mem_append_right _ (List.mem_cons_self _ _)
    obtain ⟨hu, hd⟩ := hwf5 e hef
    rcases Option.isSome_iff_exists.mp hu with ⟨u0, hu0⟩
    rcases Option.isSome_iff_exists.mp hd with ⟨d0, hd0⟩
    have hu0out : u0 ∈ out := hperm.mem_iff.mpr (taskOf_mem_values hu0)
    have hd0out : d0 ∈ out := hperm.mem_iff.mpr (taskOf_mem_values hd0)
    have hu0name : u0.name = e.upstream_task := taskOf_name hco hu0
    have hd0name : d0.name = e.downstream_task := taskOf_name hco hd0
    have hu0gb : taskOf gb e.upstream_task = some u0 := by
      rw [← hu0name]
      show dictGet gb.tasks u0.name = some u0
      rw [hgt]
      exact taskOf_pairlist honames hu0out
    have hd0gb : taskOf gb e.downstream_task = some d0 := by
      rw [← hd0name]
      show dictGet gb.tasks d0.name = some d0
      rw [hgt]
      exact taskOf_pairlist honames hd0out
    have hget_u : gb.get_taskS e.upstream_task = .ok (u0, gb) := by
      unfold Flow.get_taskS
      rw [hu0gb]
    have hget_d : gb.get_taskS e.downstream_task = .ok (d0, gb) := by
      unfold Flow.get_taskS
      rw [hd0gb]
    have hvout : taskValues gb = out := by
      rw [taskValues, hgt, List.map_map]
      exact List.map_id out
    have hupv : u0 ∈ taskValues gb := by rw [hvout]; exact hu0out
    have hdpv : d0 ∈ taskValues gb := by rw [hvout]; exact hd0out
    have hedge_eq : (⟨u0.name, d0.name, e.key⟩ : Edge) = e := by
      rw [hu0name, hd0name]
    have hcross : ∀ a ∈ done, RKey a e := by
      have hkc : (done ++ e :: es).Pairwise RKey := by
        rw [← hsplit]; exact hkeyinv
      have := (List.pairwise_append.mp hkc).2.2
      intro a ha
      exact this a ha e (List.mem_cons_self _ _)
    have henotdone : e ∉ done := by
      have hndc : (done ++ e :: es).Nodup := by rw [← hsplit]; exact hednd
      have hdisj := (List.nodup_append.mp hndc).2.2
      intro hEq
      exact hdisj hEq (List.mem_cons_self _ _)
    have hins : edgeInsert gb.edges e = done ++ [e] := by
      rw [hge]; unfold edgeInsert; rw [if_neg henotdone]
    have hsubl : List.Sublist (done ++ [e]) f.edges := by
      rw [hsplit]
      apply List.Sublist.append_left
      simp
    have hwf3 : WellFormed { gb with edges := done ++ [e] } :=
      wf_of_pair_tasks hwf hperm hsubl _ hgt rfl
    have hrank3 : HasRanking { gb with edges := done ++ [e] } :=
      hasRanking_of_sub hrank (fun e2 he2 => hsubl.subset he2)
    rcases (sorted_tasksS_none_dichotomy _ hwf3).1 hrank3 with ⟨out2, hok2, _, _⟩
    have hcommit : add_edgeCommit gb e = .ok { gb with edges := done ++ [e] } := by
      simp only [add_edgeCommit]
      rw [hins, hok2]
    have hadd : gb.add_edgeS u0 d0 e.key =
        .ok { gb with edges := done ++ [e] } := by
      rw [add_edgeS_endpoints_present hupv hdpv]
      cases hk : e.key with
      | none =>
        dsimp only
        rw [← hk, hedge_eq]
        exact hcommit
      | some kk =>
        dsimp only
        have hchk : ¬ ((gb.edges.any (fun e2 =>
            decide (e2.downstream_task = d0.name) &&
            decide (e2.key = some kk))) = true) := by
          intro hany
          rcases List.any_eq_true.mp hany with ⟨e2, he2, hprop⟩
          rw [Bool.and_eq_true] at hprop
          have he2d : e2 ∈ done := by rw [← hge]; exact he2
          refine hcross e2 he2d ⟨?_, ?_, ?_⟩
          · rw [of_decide_eq_true hprop.1, hd0name]
          · rw [of_decide_eq_true hprop.2, hk]
          · rw [of_decide_eq_true hprop.2]; simp
        rw [if_neg hchk, ← hk, hedge_eq]
        exact hcommit
    rcases ih (done ++ [e]) { gb with edges := done ++ [e] }
      (by rw [hsplit]; simp) hgt rfl with ⟨g, hg, hgeq⟩
    refine ⟨g, ?_, by rw [hgeq]⟩
    simp only [List.map_cons, addEdgesFold]
    have hser_u : (Edge.serializeRec e).upstream_task = e.upstream_task := rfl
    have hser_d : (Edge.serializeRec e).downstream_task = e.downstream_task := rfl
    have hser_k : (Edge.serializeRec e).key = e.key := rfl
    rw [hser_u, hget_u]
    dsimp only
    rw [hser_d, hget_d]
    dsimp only
    rw [hser_k, hadd]
    dsimp only
    exact hg

/-- C6: for every well-formed acyclic Flow, running `serialize` and then
`safe_deserialize` on the result yields a Flow whose task records (name,
slug, Parameter flag, required flag, default value) are a permutation of the
original task mapping, whose edge list equals the original edge list (keys
included), whose `parameters()` listing is a permutation of the original
one, and which keeps name, version and project.  The safe path rebuilds
tasks through the placeholder task constructor and never touches the
full-fidelity blob. -/
theorem serialize_safe_roundtrip (f : Flow) (hwf : WellFormed f)
    (hrank : HasRanking f) :
    ∃ s g, f.serializeE = .ok s ∧ Flow.safe_deserializeE s = .ok g ∧
      g.tasks.Perm f.tasks ∧ g.edges = f.edges ∧
      (∀ b, (parametersList g b).Perm (parametersList f b)) ∧
      g.name = f.name ∧ g.version = f.version ∧ g.project = f.project := by
  have hwfc := hwf
  obtain ⟨hnd, hco, hslugs, hednd, hwf5, hkeyinv⟩ := hwfc
  rcases (sorted_tasksS_none_dichotomy f hwf).1 hrank with ⟨out, hok, hperm, _⟩
  have hser : f.serializeE = .ok
      { project := f.project, name := f.name, version := f.version,
        tasks := out.enum.map (fun p => Task.serializeRec p.2 (p.1 + 1)),
        edges := f.edges.map Edge.serializeRec,
        parameters := parametersList f false,
        description := f.description, schedule := f.schedule,
        concurrent_runs := flowConcurrentRuns } := by
    simp only [Flow.serializeE]
    rw [hok]
  have htasks_eq : ((out.enum.map (fun p => Task.serializeRec p.2 (p.1 + 1))).map
      Task.safe_deserializeRec) = out := by
    rw [List.map_map]
    have h1 : (Task.safe_deserializeRec ∘
        fun p : Nat × Task => Task.serializeRec p.2 (p.1 + 1)) = Prod.snd := by
      funext p
      rfl
    rw [h1]
    exact List.enum_map_snd out
  have houtsub : ∀ x ∈ out, x ∈ taskValues f := fun x hx => hperm.mem_iff.mp hx
  have houtnd : out.Nodup := hperm.nodup_iff.mpr (taskValues_nodup hnd hco)
  have hvslugs : ((taskValues f).map Task.slug).Nodup := by
    have heq2 : (taskValues f).map Task.slug =
        f.tasks.map (fun p => p.2.slug) := by
      rw [taskValues, List.map_map]; rfl
    rw [heq2]; exact hslugs
  have hslugmap := map_nodup_of_mem_nodup Task.slug houtnd houtsub hvslugs
  have hnamemap := map_nodup_of_mem_nodup Task.name houtnd houtsub
    (taskValues_names_nodup hnd hco)
  have hfold := @addTasksFold_ok out
    { name := f.name, version := f.version, project := f.project,
      description := none, schedule := f.schedule,
      tasks := [], edges := [] }
    (by intro x hx u hu; simp [taskValues] at hu)
    (by intro x hx p hp; simp at hp)
    hslugmap hnamemap
  have hedges := addEdgesFold_spec hwf hrank hperm f.edges []
    { name := f.name, version := f.version, project := f.project,
      description := none, schedule := f.schedule,
      tasks := out.map (fun t => (t.name, t)), edges := [] }
    (by simp) rfl rfl
  rcases hedges with ⟨g, hg, hgeq⟩
  have hsafe : Flow.safe_deserializeE
      { project := f.project, name := f.name, version := f.version,
        tasks := out.enum.map (fun p => Task.serializeRec p.2 (p.1 + 1)),
        edges := f.edges.map Edge.serializeRec,
        parameters := parametersList f false,
        description := f.description, schedule := f.schedule,
        concurrent_runs := flowConcurrentRuns } = .ok g := by
    simp only [Flow.safe_deserializeE]
    rw [htasks_eq, hfold]
    dsimp only
    rw [show ([] : List (String × Task)) ++ out.map (fun t => (t.name, t)) =
        out.map (fun t => (t.name, t)) from List.nil_append _] at *
    rw [hg]
  refine ⟨_, g, hser, hsafe, ?_, ?_, ?_, ?_, ?_, ?_⟩
  · rw [hgeq]
    show (out.map (fun t => (t.name, t))).Perm f.tasks
    have := hperm.map (fun t => (t.name, t))
    rw [tasks_eq_values_pair hco] at this
    exact this
  · rw [hgeq]
  · intro b
    rw [hgeq]
    have hgv :
        taskValues
          { name := f.name, version := f.version, project := f.project,
            description := none, schedule := f.schedule,
            tasks := out.map (fun t => (t.name, t)),
            edges := f.edges } = out := by
      rw [taskValues]
      show (out.map (fun t => (t.name, t))).map Prod.snd = out
      rw [List.map_map]
      exact List.map_id out
    simp only [parametersList]
    rw [hgv]
    exact (hperm.filter _).map _
  · rw [hgeq]
  · rw [hgeq]
  · rw [hgeq]

/-- Witness for C6 at the concrete scenario flow, whose Parameter task P
carries required metadata and a default value. -/
theorem serialize_safe_roundtrip_witness :
    ∃ s g, flowABC.serializeE = .ok s ∧ Flow.safe_deserializeE s = .ok g ∧
      g.tasks.Perm flowABC.tasks ∧ g.edges = flowABC.edges ∧
      (∀ b, (parametersList g b).Perm (parametersList flowABC b)) ∧
      g.name = flowABC.name ∧ g.version = flowABC.version ∧
      g.project = flowABC.project :=
  serialize_safe_roundtrip flowABC (by decide)
    ⟨fun n => if n = "P" then 0 else if n = "A" then 1 else if n = "B" then 2 else 3,
      by decide⟩

end PrefectSpec
